import Mathlib

/-!
Verification of the ipfs-log Log class (src/log.js).

The Log data model, append, join, traversal, difference and head
computation are embedded from src/log.js.  The collaborators that the
repository keeps in separate files not present under src/ (entry.js,
lamport-clock.js, log-sorting.js) are modelled from the specification and
marked as such in their doc comments.

JavaScript objects used as maps are modelled as insertion-ordered
association lists (JsMap): assigning to an existing key rewrites it in
place, a fresh key is appended at the end, exactly as JS object keys
behave.
-/

/-- Lamport clock: replica id and time (spec 3.1; lamport-clock.js). -/
structure Clock where
  id : String
  time : Nat
deriving DecidableEq, Repr

/-- Immutable log entry (spec 3.2; entry.js). -/
structure Entry where
  hash : String
  id : String
  payload : String
  next : List String
  clock : Clock
  identity : String
  sig : String
deriving DecidableEq, Repr

/-- A JavaScript object used as a map: an insertion-ordered association
list with string keys. -/
abbrev JsMap (α : Type) := List (String × α)

/-- Reading obj[k]: the value at the first (unique) occurrence of k. -/
def jsGet {α : Type} (m : JsMap α) (k : String) : Option α :=
  match m with
  | [] => none
  | p :: rest => if p.1 = k then some p.2 else jsGet rest k

/-- Does the object have key k. -/
def jsHasKey {α : Type} (m : JsMap α) (k : String) : Bool :=
  m.any (fun p => decide (p.1 = k))

/-- Writing obj[k] = v: update in place if the key exists, else append. -/
def jsSet {α : Type} (m : JsMap α) (k : String) (v : α) : JsMap α :=
  if jsHasKey m k then m.map (fun p => if p.1 = k then (k, v) else p)
  else m ++ [(k, v)]

/-- Object.keys. -/
def jsKeys {α : Type} (m : JsMap α) : List String := m.map Prod.fst

/-- Object.values. -/
def jsVals {α : Type} (m : JsMap α) : List α := m.map Prod.snd

/-- Object.assign(m, n): write every pair of n into m, in order. -/
def jsAssign {α : Type} (m n : JsMap α) : JsMap α :=
  n.foldl (fun acc p => jsSet acc p.1 p.2) m

/-- Build a map from a list of entries keyed by hash
(the uniqueEntriesReducer of src/log.js). -/
def entriesToMap (l : List Entry) : JsMap Entry :=
  l.foldl (fun m e => jsSet m e.hash e) []

/-- Kernel-computable strict comparison of strings, agreeing with the
lexicographic string order (see strLtB_iff_lt). -/
def strLtB (a b : String) : Bool := decide (a.toList < b.toList)

/-- Kernel-computable three-way string comparison. -/
def strCmpB (a b : String) : Ordering :=
  if strLtB a b then Ordering.lt else if strLtB b a then Ordering.gt
  else Ordering.eq

/-- Modelled from the spec (4.3; log-sorting.js is not under src/):
LastWriteWins compares clock time, then clock id, then hash. -/
def lwwCmp (a b : Entry) : Ordering :=
  (compare a.clock.time b.clock.time).then
    ((strCmpB a.clock.id b.clock.id).then (strCmpB a.hash b.hash))

/-- a is at or before b in LastWriteWins order. -/
def lwwLe (a b : Entry) : Prop := lwwCmp a b ≠ Ordering.gt

instance : DecidableRel lwwLe := fun a b => by unfold lwwLe; infer_instance

/-- JS sort(LastWriteWins): stable sort, ascending. -/
def sortLwwAsc (l : List Entry) : List Entry := List.insertionSort lwwLe l

/-- JS sort(LastWriteWins).reverse(): descending LastWriteWins order. -/
def sortLwwDesc (l : List Entry) : List Entry :=
  (List.insertionSort lwwLe l).reverse

/-- The order induced by the boolean comparator
compareIds = (a, b) => a.clock.id > b.clock.id of Log.findHeads: a JS sort
with a comparator that returns 1 (move a after b) when a.clock.id is
greater and 0 (keep) otherwise behaves as a stable sort ascending by
clock.id. -/
def idLe (a b : Entry) : Prop := a.clock.id ≤ b.clock.id

instance : DecidableRel idLe := fun a b =>
  decidable_of_iff (¬b.clock.id.toList < a.clock.id.toList)
    (by rw [idLe, ← String.lt_iff_toList_lt, not_lt])

instance : IsTotal Entry idLe := ⟨fun a b => le_total a.clock.id b.clock.id⟩

instance : IsTrans Entry idLe := ⟨fun _ _ _ h h2 => le_trans h h2⟩

/-- Modelled from the spec (4.2; entry.js is not under src/): the content
hash is a deterministic function of the canonical fields. -/
def entryHash (logId payload : String) (next : List String) (clock : Clock)
    (identity : String) : String :=
  "#" ++ logId ++ "|" ++ payload ++ "|" ++ String.intercalate "," next ++
    "|" ++ clock.id ++ ":" ++ toString clock.time ++ "|" ++ identity

/-- Modelled from the spec (4.2; entry.js is not under src/): Entry.create
assembles the canonical tuple, signs it, stores it, and returns the entry
with hash and sig populated. -/
def Entry.create (identity logId payload : String) (next : List String)
    (clock : Clock) : Entry :=
  { hash := entryHash logId payload next clock identity
    id := logId
    payload := payload
    next := next
    clock := clock
    identity := identity
    sig := "sig|" ++ identity ++ "|" ++ entryHash logId payload next clock identity }

/-- The in-memory state of a Log instance (src/log.js constructor):
id, the three indices, the manually tracked length, and the clock.
The identity field is the identity public key used as the clock id. -/
structure LogState where
  id : String
  identity : String
  entryIndex : JsMap Entry
  headsIndex : JsMap Entry
  nextsIndex : JsMap String
  length : Nat
  clock : Clock
deriving DecidableEq, Repr

namespace Log

/-- Log.prototype.get: look the hash up in the entry index. -/
def get (st : LogState) (hash : String) : Option Entry :=
  jsGet st.entryIndex hash

/-- The heads getter: Object.values(headsIndex).sort(LastWriteWins).reverse(). -/
def heads (st : LogState) : List Entry := sortLwwDesc (jsVals st.headsIndex)

/-- maxClockTimeReducer fold: heads.reduce(maxClockTimeReducer, 0). -/
def maxClockTime (l : List Entry) : Nat :=
  l.foldl (fun r e => max r e.clock.time) 0

/-- Log.findHeads (src/log.js line 609): keep the entries whose hash occurs
in no input entry's next list, then sort with the boolean comparator
compareIds (which behaves as ascending by clock.id, see idLe). -/
def findHeads (entries : List Entry) : List Entry :=
  List.insertionSort idLe
    (entries.filter (fun e => decide (e.hash ∉ entries.flatMap Entry.next)))

/-- One round of the traverse while loop (src/log.js line 281), with fuel.
The popped entry is recorded unconditionally; its next pointers are
resolved against the entry index and pushed unless already traversed
(addToStack), re-sorting the stack in descending LastWriteWins order. -/
def travLoop (m : JsMap Entry) :
    Nat → List Entry → List String → JsMap Entry → Nat → Int → JsMap Entry
  | 0, _, _, res, _, _ => res
  | fuel + 1, stack, traversed, res, count, amount =>
    if amount = -1 ∨ (count : Int) < amount then
      match stack with
      | [] => res
      | e :: rest =>
        let res2 := jsSet res e.hash e
        let nextEntries := e.next.filterMap (fun p => jsGet m p)
        let pushed := nextEntries.foldl
          (fun (acc : List Entry × List String) f =>
            if f.hash ∈ acc.2 then acc
            else (sortLwwDesc (f :: acc.1), f.hash :: acc.2))
          (rest, traversed)
        travLoop m fuel pushed.1 pushed.2 res2 (count + 1) amount
    else res

/-- Fuel bound for traverse: every iteration pops one element, the initial
stack has the roots, and each distinct hash is pushed at most once. -/
def travFuel (st : LogState) (roots : List Entry) : Nat :=
  roots.length + st.entryIndex.length + 1

/-- Log.prototype.traverse (src/log.js line 248). -/
def traverse (st : LogState) (roots : List Entry) (amount : Int := -1) :
    JsMap Entry :=
  travLoop st.entryIndex (travFuel st roots) (sortLwwDesc roots) [] [] 0 amount

/-- The values getter: Object.values(traverse(heads)).reverse(), i.e. the
reachable entries in ascending LastWriteWins order. -/
def values (st : LogState) : List Entry :=
  (jsVals (traverse st (heads st) (-1))).reverse

end Log

/-- External collaborators of append: the access controller decision and
whether signing and the block-store write succeed (spec 4.2 and 6). -/
structure AppendEnv where
  canAppend : Entry → Bool
  createOk : Bool

namespace Log

/-- Log.prototype.append (src/log.js line 309).  Mutation order follows the
source: the clock is advanced first, then the entry is created (signing /
storage may fail), then the access controller is consulted, and only then
are the indices updated.  The returned pair is the state of the log object
after the call together with the outcome (the created entry, or the
raised error). -/
def append (env : AppendEnv) (st : LogState) (payload : String)
    (pointerCount : Nat := 1) : LogState × Except String Entry :=
  let newTime := max st.clock.time (maxClockTime (heads st)) + 1
  let st1 : LogState := { st with clock := ⟨st.clock.id, newTime⟩ }
  let references :=
    traverse st1 (heads st1) (Int.ofNat (max pointerCount (heads st1).length))
  let nexts := jsKeys (jsAssign (jsAssign [] st1.headsIndex) references)
  if !env.createOk then (st1, Except.error "storage or signing failure")
  else
    let entry := Entry.create st1.identity st1.id payload nexts st1.clock
    if !env.canAppend entry then
      (st1, Except.error "Could not append entry, key is not allowed to write to the log")
    else
      ({ st1 with
          entryIndex := jsSet st1.entryIndex entry.hash entry
          nextsIndex := nexts.foldl (fun m p => jsSet m p entry.hash) st1.nextsIndex
          headsIndex := jsSet [] entry.hash entry
          length := st1.length + 1 },
        Except.ok entry)

/-- pushToStack of Log.difference (src/log.js line 715): push each hash not
yet traversed and not present in b, marking it traversed. -/
def pushNexts (b : LogState) :
    List String → List String → List String → List String × List String
  | [], stack, traversed => (stack, traversed)
  | p :: ps, stack, traversed =>
    if p ∈ traversed ∨ jsGet b.entryIndex p ≠ none then
      pushNexts b ps stack traversed
    else pushNexts b ps (stack ++ [p]) (p :: traversed)

/-- The while loop of Log.difference (src/log.js line 722), with fuel:
pop a hash; if it resolves in a, is absent from b and carries b's id,
record it and push its next pointers. -/
def diffLoop (a b : LogState) :
    Nat → List String → List String → JsMap Entry → JsMap Entry
  | 0, _, _, res => res
  | _ + 1, [], _, res => res
  | fuel + 1, hash :: rest, traversed, res =>
    match jsGet a.entryIndex hash with
    | some entry =>
      if jsGet b.entryIndex hash = none ∧ entry.id = b.id then
        let res2 := jsSet res entry.hash entry
        let traversed2 := entry.hash :: traversed
        let pushed := pushNexts b entry.next rest traversed2
        diffLoop a b fuel pushed.1 pushed.2 res2
      else diffLoop a b fuel rest traversed res
    | none => diffLoop a b fuel rest traversed res

/-- All next pointers of the entries of a map. -/
def allNexts (m : JsMap Entry) : List String := (jsVals m).flatMap Entry.next

/-- Decreasing measure for the difference loop: each iteration pops one
hash, and every pushed hash is a not-yet-traversed member of allNexts. -/
def diffMeasure (a : LogState) (stack traversed : List String) : Nat :=
  stack.length +
    2 * ((allNexts a.entryIndex).filter (fun p => !decide (p ∈ traversed))).length

/-- Fuel bound for the difference loop. -/
def diffFuel (a : LogState) : Nat :=
  a.headsIndex.length + 2 * (allNexts a.entryIndex).length + 1

/-- Log.difference (src/log.js line 710): entries reachable from a's heads
that are absent from b, collected by a breadth walk that prunes at entries
present in b. -/
def difference (a b : LogState) : JsMap Entry :=
  diffLoop a b (diffFuel a) (jsKeys a.headsIndex) [] []

end Log

/-- External collaborators of join: the access controller decision and the
signature verifier (spec 4.6 and 6). -/
structure JoinEnv where
  canAppend : Entry → Bool
  verify : Entry → Bool

namespace Log

/-- tmp.slice(-size) of the join truncation (src/log.js line 408).  In
JavaScript -0 === 0, so slice(-0) is slice(0) and keeps the whole array;
for size > 0 it keeps the last size elements. -/
def jsSliceNeg {α : Type} (l : List α) (size : Int) : List α :=
  if size = 0 then l else l.drop (l.length - size.toNat)

/-- The integration and head-merge stage of Log.prototype.join
(src/log.js lines 383 to 403), run after both gates have passed: update
the nexts index and the length (addToNextsIndex, against the unchanged
entry index), merge the entry index (Object.assign), and recompute the
heads from findHeads over the union of both heads indices, filtered by
notReferencedByNewItems and notInCurrentNexts. -/
def joinMid (st other : LogState) : LogState :=
  let newItems := difference other st
  let ln := (jsVals newItems).foldl
    (fun (acc : Nat × JsMap String) e =>
      ((if jsGet st.entryIndex e.hash = none then acc.1 + 1 else acc.1),
        e.next.foldl (fun m p => jsSet m p e.hash) acc.2))
    (st.length, st.nextsIndex)
  let entryIndex2 := jsAssign st.entryIndex newItems
  let nextsFromNewItems := (jsVals newItems).foldl (fun acc e => acc ++ e.next) []
  let candidates := jsVals (jsAssign (jsAssign [] st.headsIndex) other.headsIndex)
  let mergedHeads := entriesToMap
    (((findHeads candidates).filter
        (fun e => !(nextsFromNewItems.contains e.hash))).filter
      (fun e => decide (jsGet ln.2 e.hash = none)))
  { st with
      entryIndex := entryIndex2
      headsIndex := mergedHeads
      nextsIndex := ln.2
      length := ln.1 }

/-- The truncation stage of Log.prototype.join (src/log.js lines 406 to
412), run when size > -1: slice the values to the last size entries
(slice(-size), a no-op for size 0 because -0 === 0), rebuild the entry and
heads indices from the slice, and recount the length. -/
def joinTrunc (st3 : LogState) (size : Int) : LogState :=
  let tmp := jsSliceNeg (values st3) size
  { st3 with entryIndex := entriesToMap tmp
             headsIndex := entriesToMap (findHeads tmp)
             length := (jsVals (entriesToMap tmp)).length }

/-- The final clock update of Log.prototype.join (src/log.js lines 414 to
416): retime the local clock to the maximum of its time and the head
times. -/
def joinClock (st4 : LogState) : LogState :=
  { st4 with clock := ⟨st4.clock.id,
      max st4.clock.time ((jsVals st4.headsIndex).foldl
        (fun r e => max r e.clock.time) 0)⟩ }

/-- Log.prototype.join (src/log.js line 356).  The returned pair is the
state of the joining log after the call together with the outcome.
Mutation order follows the source: id mismatch returns silently; both
gates run over all new items before any mutation; then the integration
and head merge (joinMid), the optional truncation (joinTrunc), and the
clock update (joinClock). -/
def join (env : JoinEnv) (st other : LogState) (size : Int := -1) :
    LogState × Except String Unit :=
  if st.id ≠ other.id then (st, Except.ok ()) else
  let newItems := difference other st
  match (jsVals newItems).find? (fun e => !env.canAppend e) with
  | some _ => (st, Except.error "Append not permitted")
  | none =>
  match (jsVals newItems).find? (fun e => !env.verify e) with
  | some _ => (st, Except.error "Could not validate signature")
  | none =>
    let st3 := joinMid st other
    let st4 := if size > -1 then joinTrunc st3 size else st3
    (joinClock st4, Except.ok ())

/-- The Log constructor (src/log.js line 68): build the indices from the
given entries, take the heads as given or compute them with findHeads, and
set length to the length of the entries array. -/
def mkLog (identity logId : String) (entries : List Entry)
    (headsOpt : Option (List Entry)) (clockOpt : Option Clock) : LogState :=
  let entryIndex := entriesToMap entries
  let hds := headsOpt.getD (findHeads entries)
  let headsIndex := entriesToMap hds
  let nextsIndex := entries.foldl
    (fun m e => e.next.foldl (fun m2 p => jsSet m2 p e.hash) m) []
  let st0 : LogState :=
    { id := logId, identity := identity, entryIndex := entryIndex
      headsIndex := headsIndex, nextsIndex := nextsIndex
      length := entries.length, clock := ⟨identity, 0⟩ }
  let maxTime := max (clockOpt.elim 0 Clock.time) (maxClockTime (heads st0))
  { st0 with clock := ⟨identity, maxTime⟩ }

end Log

/-- Equality of JS objects viewed as maps (key order ignored), the notion
of equality used by deepEqual on plain objects. -/
def MapEquiv {α : Type} (m n : JsMap α) : Prop := ∀ k, jsGet m k = jsGet n k

/-- Hash k is referenced by some entry of the log's entry index. -/
def Referenced (st : LogState) (p : String) : Prop :=
  ∃ e ∈ jsVals st.entryIndex, p ∈ e.next

instance (st : LogState) (p : String) : Decidable (Referenced st p) := by
  unfold Referenced; infer_instance

/-- Well-formedness of a log state: unique keys, entries keyed by their own
hash and tagged with the log id, next pointers resolving inside the index
(no dangling references), the heads index holding exactly the unreferenced
entries, and the nexts index keyed exactly by the referenced hashes. -/
structure WF (st : LogState) : Prop where
  nodupE : (jsKeys st.entryIndex).Nodup
  nodupH : (jsKeys st.headsIndex).Nodup
  tagged : ∀ p ∈ st.entryIndex, (p.2).hash = p.1 ∧ (p.2).id = st.id
  closed : ∀ e ∈ jsVals st.entryIndex, ∀ q ∈ e.next, q ∈ jsKeys st.entryIndex
  headsSub : ∀ p ∈ st.headsIndex, jsGet st.entryIndex p.1 = some p.2
  headsHead : ∀ k ∈ jsKeys st.headsIndex, k ∈ jsKeys st.entryIndex ∧ ¬Referenced st k
  headsFull : ∀ p ∈ st.entryIndex, ¬Referenced st p.1 → p.1 ∈ jsKeys st.headsIndex
  nextsSound : ∀ q ∈ jsKeys st.nextsIndex, Referenced st q
  nextsFull : ∀ e ∈ jsVals st.entryIndex, ∀ q ∈ e.next, q ∈ jsKeys st.nextsIndex

/-- A pool of entries in which hashes are content addresses: equal hashes
mean equal entries. -/
def CompatPool (pool : List Entry) : Prop :=
  ∀ e ∈ pool, ∀ f ∈ pool, e.hash = f.hash → e = f

/-- Acyclicity via a rank: every next pointer strictly decreases the rank.
Content addressing makes the next graph acyclic; a rank function witnesses
this for the entries of a pool. -/
def RankOk (rk : String → Nat) (pool : List Entry) : Prop :=
  ∀ e ∈ pool, ∀ q ∈ e.next, rk q < rk e.hash

/-- The length attribute matches the number of distinct keys of the entry
index. -/
def lengthOk (st : LogState) : Prop :=
  st.length = (jsKeys st.entryIndex).dedup.length

instance (st : LogState) : Decidable (lengthOk st) :=
  inferInstanceAs (Decidable (st.length = (jsKeys st.entryIndex).dedup.length))

instance {ε α : Type} [DecidableEq ε] [DecidableEq α] : DecidableEq (Except ε α) :=
  fun a b =>
    match a, b with
    | Except.ok x, Except.ok y => decidable_of_iff (x = y) (by simp)
    | Except.error x, Except.error y => decidable_of_iff (x = y) (by simp)
    | Except.ok _, Except.error _ => isFalse (by simp)
    | Except.error _, Except.ok _ => isFalse (by simp)

/-! ### Concrete example data used by witnesses and counterexamples -/

/-- A three-entry chain: exE3 points to exE2 points to exE1. -/
def exE1 : Entry := ⟨"h1", "X", "p1", [], ⟨"A", 1⟩, "A", "s1"⟩

/-- Middle entry of the chain. -/
def exE2 : Entry := ⟨"h2", "X", "p2", ["h1"], ⟨"A", 2⟩, "A", "s2"⟩

/-- Head entry of the chain. -/
def exE3 : Entry := ⟨"h3", "X", "p3", ["h2"], ⟨"A", 3⟩, "A", "s3"⟩

/-- A log holding the three-entry chain. -/
def exLogChain : LogState :=
  { id := "X", identity := "A"
    entryIndex := [("h1", exE1), ("h2", exE2), ("h3", exE3)]
    headsIndex := [("h3", exE3)]
    nextsIndex := [("h1", "h2"), ("h2", "h3")]
    length := 3, clock := ⟨"A", 3⟩ }

/-- Entry with no predecessors, referenced by exY. -/
def exX : Entry := ⟨"hx", "X", "px", [], ⟨"B", 1⟩, "B", "sx"⟩

/-- Entry whose next list points at exX. -/
def exY : Entry := ⟨"hy", "X", "py", ["hx"], ⟨"B", 2⟩, "B", "sy"⟩

/-- An empty log with id X. -/
def exLogEmpty : LogState :=
  { id := "X", identity := "A", entryIndex := [], headsIndex := []
    nextsIndex := [], length := 0, clock := ⟨"A", 0⟩ }

/-- An empty log with id Y. -/
def exLogIdY : LogState :=
  { id := "Y", identity := "A", entryIndex := [], headsIndex := []
    nextsIndex := [], length := 0, clock := ⟨"A", 0⟩ }

/-- A log holding only exY, whose next pointer to exX dangles (a partial
replica, as produced by a bounded load). -/
def exLogA : LogState :=
  { id := "X", identity := "B", entryIndex := [("hy", exY)]
    headsIndex := [("hy", exY)], nextsIndex := [("hx", "hy")]
    length := 1, clock := ⟨"B", 2⟩ }

/-- A log holding both exX and exY. -/
def exLogB : LogState :=
  { id := "X", identity := "B", entryIndex := [("hx", exX), ("hy", exY)]
    headsIndex := [("hy", exY)], nextsIndex := [("hx", "hy")]
    length := 2, clock := ⟨"B", 2⟩ }

/-- A log holding only exX (a well-formed single-entry replica). -/
def exLogC : LogState :=
  { id := "X", identity := "B", entryIndex := [("hx", exX)]
    headsIndex := [("hx", exX)], nextsIndex := []
    length := 1, clock := ⟨"B", 1⟩ }

/-- Head entry with clock id A (for the findHeads sort order). -/
def exA : Entry := ⟨"ha", "X", "pa", [], ⟨"A", 1⟩, "A", "sa"⟩

/-- Head entry with clock id B (for the findHeads sort order). -/
def exB : Entry := ⟨"hb", "X", "pb", [], ⟨"B", 1⟩, "B", "sb"⟩

/-- Join environment where every entry is permitted and verified. -/
def envAllT : JoinEnv := ⟨fun _ => true, fun _ => true⟩

/-- Join environment where the access controller denies everything. -/
def envDenyJoin : JoinEnv := ⟨fun _ => false, fun _ => true⟩

/-- Append environment where the entry is permitted and storage succeeds. -/
def envOkApp : AppendEnv := ⟨fun _ => true, true⟩

/-- Append environment where the access controller denies the entry. -/
def envDenyApp : AppendEnv := ⟨fun _ => false, true⟩

/-- The entry produced by appending payload p to the empty log. -/
def exAppEntry : Entry :=
  ⟨"#X|p||A:1|A", "X", "p", [], ⟨"A", 1⟩, "A", "sig|A|#X|p||A:1|A"⟩

/-- The log state after appending payload p to the empty log. -/
def exAppSt : LogState :=
  { id := "X", identity := "A"
    entryIndex := [("#X|p||A:1|A", exAppEntry)]
    headsIndex := [("#X|p||A:1|A", exAppEntry)]
    nextsIndex := [], length := 1, clock := ⟨"A", 1⟩ }

/-- A hash that the difference loop can never record: either it is present
in b (the walk prunes there), or it does not resolve in a to an entry
carrying b's id. -/
def Dead (a b : LogState) (p : String) : Prop :=
  jsGet b.entryIndex p ≠ none ∨
    ∀ e, jsGet a.entryIndex p = some e → e.id ≠ b.id

/-- A hash is settled with respect to a result map of the difference loop:
already recorded, or dead. -/
def Settled (a b : LogState) (res : JsMap Entry) (p : String) : Prop :=
  p ∈ jsKeys res ∨ Dead a b p

/-- The number of entries of a log whose hash ranks strictly above k;
the measure for the climb from any entry up to a head. -/
def rankAbove (a : LogState) (rk : String → Nat) (k : String) : Nat :=
  ((jsVals a.entryIndex).filter (fun e => decide (rk k < rk e.hash))).length

/-- The lookup in the union of two entry indices, preferring the first:
the value of the merged entry index after a join. -/
def unionGet (t o : LogState) (k : String) : Option Entry :=
  match jsGet t.entryIndex k with
  | some v => some v
  | none => jsGet o.entryIndex k

/-- The hypotheses under which a join integrates every entry of the other
log: both logs well formed with the same id, entries drawn from a common
content-addressed pool (equal hashes mean equal entries), and a rank
function witnessing acyclicity of the next graph over the pool. -/
structure JoinHyp (t o : LogState) (pool : List Entry) (rk : String → Nat) : Prop where
  wfT : WF t
  wfO : WF o
  ido : o.id = t.id
  poolT : ∀ e ∈ jsVals t.entryIndex, e ∈ pool
  poolO : ∀ e ∈ jsVals o.entryIndex, e ∈ pool
  compat : CompatPool pool
  rankOk : RankOk rk pool

/-! ### Basic lemmas about JsMap operations -/

theorem jsGet_eq_none_iff {α : Type} (m : JsMap α) (k : String) :
    jsGet m k = none ↔ k ∉ jsKeys m := by
  induction m with
  | nil => simp [jsGet, jsKeys]
  | cons p rest ih =>
    by_cases h : p.1 = k
    · simp [jsGet, jsKeys, h]
    · simp [jsGet, jsKeys, h, ih, Ne.symm h]

theorem jsGet_mem {α : Type} {m : JsMap α} {k : String} {v : α}
    (h : jsGet m k = some v) : (k, v) ∈ m := by
  induction m with
  | nil => simp [jsGet] at h
  | cons p rest ih =>
    by_cases hk : p.1 = k
    · simp [jsGet, hk] at h
      subst hk
      simp [← h]
    · simp [jsGet, hk] at h
      exact List.mem_cons_of_mem _ (ih h)

theorem mem_jsKeys_of_jsGet {α : Type} {m : JsMap α} {k : String} {v : α}
    (h : jsGet m k = some v) : k ∈ jsKeys m := by
  have := jsGet_mem h
  exact List.mem_map_of_mem Prod.fst this

theorem mem_jsVals_of_jsGet {α : Type} {m : JsMap α} {k : String} {v : α}
    (h : jsGet m k = some v) : v ∈ jsVals m := by
  have := jsGet_mem h
  exact List.mem_map_of_mem Prod.snd this

theorem jsGet_isSome_of_mem_keys {α : Type} {m : JsMap α} {k : String}
    (h : k ∈ jsKeys m) : ∃ v, jsGet m k = some v := by
  rcases hn : jsGet m k with _ | v
  · exact absurd ((jsGet_eq_none_iff m k).1 hn) (by simp [h])
  · exact ⟨v, rfl⟩

theorem jsGet_of_mem_nodup {α : Type} {m : JsMap α} {k : String} {v : α}
    (h : (k, v) ∈ m) (hn : (jsKeys m).Nodup) : jsGet m k = some v := by
  induction m with
  | nil => simp at h
  | cons p rest ih =>
    simp only [jsKeys, List.map_cons, List.nodup_cons] at hn
    rcases List.mem_cons.1 h with h1 | h1
    · simp [jsGet, ← h1]
    · have hne : p.1 ≠ k := by
        intro he
        exact hn.1 (he ▸ List.mem_map_of_mem Prod.fst h1)
      simp [jsGet, hne]
      exact ih h1 hn.2

theorem mem_jsVals_iff {α : Type} (m : JsMap α) (v : α) :
    v ∈ jsVals m ↔ ∃ k, (k, v) ∈ m := by
  constructor
  · intro h
    rcases List.mem_map.1 h with ⟨p, hp, he⟩
    exact ⟨p.1, by simpa [← he] using hp⟩
  · rintro ⟨k, hk⟩
    exact List.mem_map.2 ⟨(k, v), hk, rfl⟩

theorem jsHasKey_iff {α : Type} (m : JsMap α) (k : String) :
    jsHasKey m k = true ↔ k ∈ jsKeys m := by
  simp only [jsHasKey, List.any_eq_true, decide_eq_true_eq, jsKeys, List.mem_map]

theorem jsSet_of_not_mem_keys {α : Type} {m : JsMap α} {k : String} (v : α)
    (h : k ∉ jsKeys m) : jsSet m k v = m ++ [(k, v)] := by
  have : jsHasKey m k = false := by
    rcases hb : jsHasKey m k
    · rfl
    · exact absurd ((jsHasKey_iff m k).1 hb) h
  simp [jsSet, this]

theorem jsKeys_jsSet_of_mem {α : Type} {m : JsMap α} {k : String} (v : α)
    (h : k ∈ jsKeys m) : jsKeys (jsSet m k v) = jsKeys m := by
  have : jsHasKey m k = true := (jsHasKey_iff m k).2 h
  simp only [jsSet, this, if_true, jsKeys, List.map_map]
  apply List.map_congr_left
  intro p _
  by_cases hp : p.1 = k
  · simp [hp]
  · simp [hp]

theorem jsKeys_jsSet_of_not_mem {α : Type} {m : JsMap α} {k : String} (v : α)
    (h : k ∉ jsKeys m) : jsKeys (jsSet m k v) = jsKeys m ++ [k] := by
  rw [jsSet_of_not_mem_keys v h]
  simp [jsKeys]

theorem mem_jsKeys_jsSet {α : Type} (m : JsMap α) (k a : String) (v : α) :
    a ∈ jsKeys (jsSet m k v) ↔ a ∈ jsKeys m ∨ a = k := by
  by_cases h : k ∈ jsKeys m
  · rw [jsKeys_jsSet_of_mem v h]
    constructor
    · exact Or.inl
    · rintro (h1 | rfl)
      · exact h1
      · exact h
  · rw [jsKeys_jsSet_of_not_mem v h]
    simp

theorem nodup_jsKeys_jsSet {α : Type} {m : JsMap α} (k : String) (v : α)
    (h : (jsKeys m).Nodup) : (jsKeys (jsSet m k v)).Nodup := by
  by_cases hm : k ∈ jsKeys m
  · rw [jsKeys_jsSet_of_mem v hm]; exact h
  · rw [jsKeys_jsSet_of_not_mem v hm]
    simp [List.nodup_append, h, hm]

theorem jsGet_map_replace_self {α : Type} {m : JsMap α} {k : String} (v : α)
    (h : k ∈ jsKeys m) :
    jsGet (m.map (fun p => if p.1 = k then (k, v) else p)) k = some v := by
  induction m with
  | nil => simp [jsKeys] at h
  | cons p rest ih =>
    by_cases hp : p.1 = k
    · simp [jsGet, hp]
    · simp only [List.map_cons, hp, if_false, jsGet]
      exact ih (by simpa [jsKeys, Ne.symm hp] using h)

theorem jsGet_map_replace_ne {α : Type} (m : JsMap α) {k a : String} (v : α)
    (h : a ≠ k) :
    jsGet (m.map (fun p => if p.1 = k then (k, v) else p)) a = jsGet m a := by
  induction m with
  | nil => simp
  | cons p rest ih =>
    by_cases hp : p.1 = k
    · have hka : ¬(k = a) := Ne.symm h
      simp only [List.map_cons, hp, if_true, jsGet, if_neg hka]
      exact ih
    · simp only [List.map_cons, hp, if_false, jsGet]
      by_cases hpa : p.1 = a
      · simp [hpa]
      · rw [if_neg hpa, if_neg hpa]
        exact ih

theorem jsGet_append_single_self {α : Type} {m : JsMap α} {k : String} (v : α)
    (h : k ∉ jsKeys m) : jsGet (m ++ [(k, v)]) k = some v := by
  induction m with
  | nil => simp [jsGet]
  | cons p rest ih =>
    have hp : p.1 ≠ k := fun he => h (by simp [jsKeys, he])
    simp only [List.cons_append, jsGet, hp, if_false]
    exact ih (fun hr => h (by simp [jsKeys] at hr ⊢; exact Or.inr hr))

theorem jsGet_append_single_ne {α : Type} (m : JsMap α) {k a : String} (v : α)
    (h : a ≠ k) : jsGet (m ++ [(k, v)]) a = jsGet m a := by
  induction m with
  | nil => simp [jsGet, Ne.symm h]
  | cons p rest ih =>
    simp only [List.cons_append, jsGet]
    by_cases hpa : p.1 = a
    · simp [hpa]
    · rw [if_neg hpa, if_neg hpa]
      exact ih

theorem jsGet_jsSet_self {α : Type} (m : JsMap α) (k : String) (v : α) :
    jsGet (jsSet m k v) k = some v := by
  by_cases h : k ∈ jsKeys m
  · rw [jsSet, if_pos ((jsHasKey_iff m k).2 h)]
    exact jsGet_map_replace_self v h
  · rw [jsSet_of_not_mem_keys v h]
    exact jsGet_append_single_self v h

theorem jsGet_jsSet_ne {α : Type} (m : JsMap α) {k a : String} (v : α)
    (h : a ≠ k) : jsGet (jsSet m k v) a = jsGet m a := by
  by_cases hm : k ∈ jsKeys m
  · rw [jsSet, if_pos ((jsHasKey_iff m k).2 hm)]
    exact jsGet_map_replace_ne m v h
  · rw [jsSet_of_not_mem_keys v hm]
    exact jsGet_append_single_ne m v h

theorem jsAssign_nil_right {α : Type} (m : JsMap α) : jsAssign m [] = m := rfl

theorem jsAssign_cons {α : Type} (m : JsMap α) (p : String × α) (n : JsMap α) :
    jsAssign m (p :: n) = jsAssign (jsSet m p.1 p.2) n := rfl

theorem mem_jsKeys_jsAssign {α : Type} (m n : JsMap α) (a : String) :
    a ∈ jsKeys (jsAssign m n) ↔ a ∈ jsKeys m ∨ a ∈ jsKeys n := by
  induction n generalizing m with
  | nil => simp [jsAssign, jsKeys]
  | cons p rest ih =>
    rw [jsAssign_cons, ih]
    rw [mem_jsKeys_jsSet]
    simp only [jsKeys, List.map_cons, List.mem_cons]
    tauto

theorem nodup_jsKeys_jsAssign {α : Type} {m : JsMap α} (n : JsMap α)
    (h : (jsKeys m).Nodup) : (jsKeys (jsAssign m n)).Nodup := by
  induction n generalizing m with
  | nil => exact h
  | cons p rest ih =>
    rw [jsAssign_cons]
    exact ih (nodup_jsKeys_jsSet p.1 p.2 h)

theorem jsGet_jsAssign_of_not_mem {α : Type} {m n : JsMap α} {a : String}
    (h : a ∉ jsKeys n) : jsGet (jsAssign m n) a = jsGet m a := by
  induction n generalizing m with
  | nil => rfl
  | cons p rest ih =>
    rw [jsAssign_cons]
    have hpa : a ≠ p.1 := by
      intro he; exact h (by simp [jsKeys, he])
    rw [ih (fun hr => h (by simp [jsKeys] at hr ⊢; exact Or.inr hr))]
    exact jsGet_jsSet_ne m p.2 hpa

theorem jsGet_jsAssign_of_mem {α : Type} {m n : JsMap α} {a : String} {v : α}
    (h : (a, v) ∈ n) (hn : (jsKeys n).Nodup) :
    jsGet (jsAssign m n) a = some v := by
  induction n generalizing m with
  | nil => simp at h
  | cons p rest ih =>
    simp only [jsKeys, List.map_cons, List.nodup_cons] at hn
    rcases List.mem_cons.1 h with h1 | h1
    · subst h1
      rw [jsAssign_cons]
      rw [jsGet_jsAssign_of_not_mem (by simpa [jsKeys] using hn.1)]
      exact jsGet_jsSet_self m a v
    · rw [jsAssign_cons]
      exact ih h1 hn.2

theorem jsAssign_of_disjoint {α : Type} {m n : JsMap α}
    (hd : ∀ a ∈ jsKeys n, a ∉ jsKeys m) (hn : (jsKeys n).Nodup) :
    jsAssign m n = m ++ n := by
  induction n generalizing m with
  | nil => simp [jsAssign]
  | cons p rest ih =>
    simp only [jsKeys, List.map_cons, List.nodup_cons] at hn
    rw [jsAssign_cons]
    rw [jsSet_of_not_mem_keys p.2 (hd p.1 (by simp [jsKeys]))]
    have hd2 : ∀ a ∈ jsKeys rest, a ∉ jsKeys (m ++ [p]) := by
      intro a ha hm
      simp only [jsKeys, List.map_append] at hm
      rcases List.mem_append.1 hm with h1 | h1
      · exact hd a (by simp [jsKeys] at ha ⊢; exact Or.inr ha) h1
      · simp [jsKeys] at h1
        rw [h1] at ha
        exact hn.1 (by simpa [jsKeys] using ha)
    rw [ih hd2 hn.2]
    simp

theorem jsAssign_nil_left {α : Type} {m : JsMap α}
    (h : (jsKeys m).Nodup) : jsAssign [] m = m := by
  rw [jsAssign_of_disjoint (fun a _ => by simp [jsKeys]) h]
  simp

theorem jsKeys_append {α : Type} (m n : JsMap α) :
    jsKeys (m ++ n) = jsKeys m ++ jsKeys n := by
  simp [jsKeys]

theorem jsVals_append {α : Type} (m n : JsMap α) :
    jsVals (m ++ n) = jsVals m ++ jsVals n := by
  simp [jsVals]

theorem jsKeys_length {α : Type} (m : JsMap α) : (jsKeys m).length = m.length := by
  simp [jsKeys]

theorem jsVals_length {α : Type} (m : JsMap α) : (jsVals m).length = m.length := by
  simp [jsVals]

/-! ### Lemmas about entriesToMap -/

theorem entriesToMap_go (l : List Entry) (m : JsMap Entry) (e : Entry) :
    (e :: l).foldl (fun m e => jsSet m e.hash e) m =
      l.foldl (fun m e => jsSet m e.hash e) (jsSet m e.hash e) := rfl

theorem nodup_jsKeys_foldl_jsSet (l : List Entry) (m : JsMap Entry)
    (h : (jsKeys m).Nodup) :
    (jsKeys (l.foldl (fun m e => jsSet m e.hash e) m)).Nodup := by
  induction l generalizing m with
  | nil => exact h
  | cons e rest ih => exact ih _ (nodup_jsKeys_jsSet e.hash e h)

theorem nodup_jsKeys_entriesToMap (l : List Entry) :
    (jsKeys (entriesToMap l)).Nodup :=
  nodup_jsKeys_foldl_jsSet l [] (by simp [jsKeys])

theorem mem_jsKeys_foldl_jsSet (l : List Entry) (m : JsMap Entry) (a : String) :
    a ∈ jsKeys (l.foldl (fun m e => jsSet m e.hash e) m) ↔
      a ∈ jsKeys m ∨ ∃ e ∈ l, e.hash = a := by
  induction l generalizing m with
  | nil => simp
  | cons e rest ih =>
    rw [entriesToMap_go, ih]
    rw [mem_jsKeys_jsSet]
    simp only [List.mem_cons]
    constructor
    · rintro (⟨h1 | h1⟩ | ⟨f, hf, he⟩)
      · exact Or.inl h1
      · exact Or.inr ⟨e, Or.inl rfl, h1.symm⟩
      · exact Or.inr ⟨f, Or.inr hf, he⟩
    · rintro (h1 | ⟨f, hf | hf, he⟩)
      · exact Or.inl (Or.inl h1)
      · exact Or.inl (Or.inr (by rw [hf] at he; exact he.symm))
      · exact Or.inr ⟨f, hf, he⟩

theorem mem_jsKeys_entriesToMap (l : List Entry) (a : String) :
    a ∈ jsKeys (entriesToMap l) ↔ ∃ e ∈ l, e.hash = a := by
  rw [entriesToMap, mem_jsKeys_foldl_jsSet]
  simp [jsKeys]

theorem jsGet_foldl_jsSet_mem (l : List Entry) (m : JsMap Entry) {a : String}
    {v : Entry} (h : jsGet (l.foldl (fun m e => jsSet m e.hash e) m) a = some v) :
    (jsGet m a = some v ∧ ∀ e ∈ l, e.hash ≠ a) ∨ (v ∈ l ∧ v.hash = a) := by
  induction l generalizing m with
  | nil => exact Or.inl ⟨h, by simp⟩
  | cons e rest ih =>
    rw [entriesToMap_go] at h
    rcases ih _ h with ⟨h1, h2⟩ | ⟨h1, h2⟩
    · by_cases he : e.hash = a
      · rw [he] at h1
        rw [jsGet_jsSet_self] at h1
        have hev : e = v := by injection h1
        exact Or.inr ⟨by rw [← hev]; exact List.mem_cons_self e rest,
          by rw [← hev]; exact he⟩
      · rw [jsGet_jsSet_ne _ _ (Ne.symm he)] at h1
        exact Or.inl ⟨h1, by
          intro f hf
          rcases List.mem_cons.1 hf with h3 | h3
          · rw [h3]; exact he
          · exact h2 f h3⟩
    · exact Or.inr ⟨List.mem_cons_of_mem _ h1, h2⟩

theorem jsGet_entriesToMap_mem (l : List Entry) {a : String} {v : Entry}
    (h : jsGet (entriesToMap l) a = some v) : v ∈ l ∧ v.hash = a := by
  rcases jsGet_foldl_jsSet_mem l [] h with ⟨h1, _⟩ | h1
  · simp [jsGet] at h1
  · exact h1

/-! ### Lemmas about the sorts, maxClockTime and findHeads -/

theorem mem_sortLwwDesc (l : List Entry) (e : Entry) :
    e ∈ sortLwwDesc l ↔ e ∈ l := by
  rw [sortLwwDesc, List.mem_reverse, List.mem_insertionSort]

theorem mem_sortLwwAsc (l : List Entry) (e : Entry) :
    e ∈ sortLwwAsc l ↔ e ∈ l := by
  rw [sortLwwAsc, List.mem_insertionSort]

theorem foldl_max_init_le (l : List Entry) (init : Nat) :
    init ≤ l.foldl (fun r e => max r e.clock.time) init := by
  induction l generalizing init with
  | nil => exact le_refl _
  | cons e rest ih =>
    exact le_trans (le_max_left _ _) (ih (max init e.clock.time))

theorem le_foldl_max {l : List Entry} {e : Entry} (he : e ∈ l) (init : Nat) :
    e.clock.time ≤ l.foldl (fun r e => max r e.clock.time) init := by
  induction l generalizing init with
  | nil => simp at he
  | cons f rest ih =>
    rcases List.mem_cons.1 he with h1 | h1
    · subst h1
      exact le_trans (le_max_right init e.clock.time)
        (foldl_max_init_le rest (max init e.clock.time))
    · exact ih h1 (max init f.clock.time)

theorem le_maxClockTime {l : List Entry} {e : Entry} (he : e ∈ l) :
    e.clock.time ≤ Log.maxClockTime l :=
  le_foldl_max he 0

theorem mem_findHeads (entries : List Entry) (e : Entry) :
    e ∈ Log.findHeads entries ↔
      e ∈ entries ∧ ∀ f ∈ entries, e.hash ∉ f.next := by
  rw [Log.findHeads, List.mem_insertionSort, List.mem_filter]
  simp only [decide_eq_true_eq, List.mem_flatMap]
  constructor
  · rintro ⟨h1, h2⟩
    exact ⟨h1, fun f hf hn => h2 ⟨f, hf, hn⟩⟩
  · rintro ⟨h1, h2⟩
    exact ⟨h1, fun ⟨f, hf, hn⟩ => h2 f hf hn⟩

theorem sorted_findHeads (entries : List Entry) :
    List.Sorted idLe (Log.findHeads entries) :=
  List.sorted_insertionSort idLe _

/-! ### Characterization of append -/

theorem append_error_spec (env : AppendEnv) (st : LogState) (payload : String)
    (pc : Nat) (st2 : LogState) (msg : String)
    (h : Log.append env st payload pc = (st2, Except.error msg)) :
    st2 = { st with
      clock := ⟨st.clock.id, max st.clock.time (Log.maxClockTime (Log.heads st)) + 1⟩ } := by
  simp only [Log.append] at h
  split at h
  · exact (Prod.mk.injEq _ _ _ _ ▸ h).1.symm
  · split at h
    · exact (Prod.mk.injEq _ _ _ _ ▸ h).1.symm
    · exact absurd (Prod.mk.injEq _ _ _ _ ▸ h).2 (by simp)

theorem append_ok_spec (env : AppendEnv) (st : LogState) (payload : String)
    (pc : Nat) (st2 : LogState) (entry : Entry)
    (h : Log.append env st payload pc = (st2, Except.ok entry)) :
    ∃ nexts : List String,
      entry = Entry.create st.identity st.id payload nexts
        ⟨st.clock.id, max st.clock.time (Log.maxClockTime (Log.heads st)) + 1⟩ ∧
      st2.entryIndex = jsSet st.entryIndex entry.hash entry ∧
      st2.headsIndex = jsSet [] entry.hash entry ∧
      st2.nextsIndex = nexts.foldl (fun m p => jsSet m p entry.hash) st.nextsIndex ∧
      st2.length = st.length + 1 ∧
      st2.clock = ⟨st.clock.id, max st.clock.time (Log.maxClockTime (Log.heads st)) + 1⟩ ∧
      st2.id = st.id ∧ st2.identity = st.identity := by
  simp only [Log.append] at h
  split at h
  · exact absurd (Prod.mk.injEq _ _ _ _ ▸ h).2 (by simp)
  · split at h
    · exact absurd (Prod.mk.injEq _ _ _ _ ▸ h).2 (by simp)
    · rw [Prod.mk.injEq] at h
      obtain ⟨h1, h2⟩ := h
      injection h2 with h2
      subst h1
      subst h2
      exact ⟨_, rfl, rfl, rfl, rfl, rfl, rfl, rfl, rfl⟩

/-! ### Claims about append (C2, C3, C10) -/

/-- C2 (counterexample): the claim says a failing append leaves the clock
unchanged, but src/log.js advances the clock before the access check, so a
denied append on the empty log leaves the clock at time 1, not 0, while
the outcome is an error. -/
theorem append_denied_changes_clock_ce :
    (∃ msg, (Log.append envDenyApp exLogEmpty "p" 1).2 = Except.error msg) ∧
    (Log.append envDenyApp exLogEmpty "p" 1).1.clock.time ≠ exLogEmpty.clock.time := by
  refine ⟨⟨"Could not append entry, key is not allowed to write to the log", ?_⟩, ?_⟩
  · rfl
  · decide

/-- C2 (amended): for every call to append, if the operation fails (access
denied, signing failure, or storage failure), the entryIndex, headsIndex,
nextsIndex and length are unchanged, but the local clock is not: it has
already been advanced to max(local time, max head time) + 1 before any of
the failure points can be reached. -/
theorem append_failure_preserves_indices (env : AppendEnv) (st : LogState)
    (payload : String) (pc : Nat) (st2 : LogState) (msg : String)
    (h : Log.append env st payload pc = (st2, Except.error msg)) :
    st2.entryIndex = st.entryIndex ∧ st2.headsIndex = st.headsIndex ∧
    st2.nextsIndex = st.nextsIndex ∧ st2.length = st.length ∧
    st2.clock.id = st.clock.id ∧
    st2.clock.time = max st.clock.time (Log.maxClockTime (Log.heads st)) + 1 := by
  rw [append_error_spec env st payload pc st2 msg h]
  exact ⟨rfl, rfl, rfl, rfl, rfl, rfl⟩

/-- Witness for the amended C2: the denied append on the empty log keeps
all indices and the length. -/
theorem append_failure_preserves_indices_witness :
    (Log.append envDenyApp exLogEmpty "p" 1).1.entryIndex = exLogEmpty.entryIndex ∧
    (Log.append envDenyApp exLogEmpty "p" 1).1.headsIndex = exLogEmpty.headsIndex ∧
    (Log.append envDenyApp exLogEmpty "p" 1).1.nextsIndex = exLogEmpty.nextsIndex ∧
    (Log.append envDenyApp exLogEmpty "p" 1).1.length = exLogEmpty.length ∧
    (Log.append envDenyApp exLogEmpty "p" 1).1.clock.id = exLogEmpty.clock.id ∧
    (Log.append envDenyApp exLogEmpty "p" 1).1.clock.time =
      max exLogEmpty.clock.time (Log.maxClockTime (Log.heads exLogEmpty)) + 1 :=
  append_failure_preserves_indices envDenyApp exLogEmpty "p" 1 _
    "Could not append entry, key is not allowed to write to the log" rfl

/-- C3: after a successful append, the headsIndex holds exactly the new
entry, and the new entry's clock time is strictly greater than the prior
local clock time and than every prior head's clock time. -/
theorem append_ok_single_head_and_clock (env : AppendEnv) (st : LogState)
    (payload : String) (pc : Nat) (st2 : LogState) (entry : Entry)
    (h : Log.append env st payload pc = (st2, Except.ok entry)) :
    jsKeys st2.headsIndex = [entry.hash] ∧
    jsGet st2.headsIndex entry.hash = some entry ∧
    st.clock.time < entry.clock.time ∧
    ∀ e ∈ jsVals st.headsIndex, e.clock.time < entry.clock.time := by
  obtain ⟨nexts, hent, _, hheads, _, _, _, _, _⟩ := append_ok_spec env st payload pc st2 entry h
  have hclock : entry.clock.time = max st.clock.time (Log.maxClockTime (Log.heads st)) + 1 := by
    rw [hent]; rfl
  refine ⟨?_, ?_, ?_, ?_⟩
  · rw [hheads]; rfl
  · rw [hheads]; exact jsGet_jsSet_self [] entry.hash entry
  · rw [hclock]
    exact Nat.lt_succ_of_le (le_max_left _ _)
  · intro e he
    rw [hclock]
    refine Nat.lt_succ_of_le (le_trans ?_ (le_max_right _ _))
    exact le_maxClockTime ((mem_sortLwwDesc _ e).2 he)

/-- Witness for C3: appending to the empty log yields a single head with
clock time 1. -/
theorem append_ok_single_head_and_clock_witness :
    jsKeys exAppSt.headsIndex = [exAppEntry.hash] ∧
    jsGet exAppSt.headsIndex exAppEntry.hash = some exAppEntry ∧
    exLogEmpty.clock.time < exAppEntry.clock.time ∧
    ∀ e ∈ jsVals exLogEmpty.headsIndex, e.clock.time < exAppEntry.clock.time :=
  append_ok_single_head_and_clock envOkApp exLogEmpty "p" 1 exAppSt exAppEntry rfl

/-- C10: a successful append returns the newly created entry itself (with
its payload, id and the new clock), not the log, and the entry is
immediately retrievable through get on the updated log. -/
theorem append_returns_retrievable_entry (env : AppendEnv) (st : LogState)
    (payload : String) (pc : Nat) (st2 : LogState) (entry : Entry)
    (h : Log.append env st payload pc = (st2, Except.ok entry)) :
    Log.get st2 entry.hash = some entry ∧
    jsGet st2.headsIndex entry.hash = some entry ∧
    entry.id = st.id ∧ entry.payload = payload ∧ entry.clock = st2.clock := by
  obtain ⟨nexts, hent, hidx, hheads, _, _, hclock, _, _⟩ :=
    append_ok_spec env st payload pc st2 entry h
  refine ⟨?_, ?_, ?_, ?_, ?_⟩
  · rw [Log.get, hidx]
    exact jsGet_jsSet_self _ entry.hash entry
  · rw [hheads]
    exact jsGet_jsSet_self [] entry.hash entry
  · rw [hent]; rfl
  · rw [hent]; rfl
  · rw [hclock, hent]; rfl

/-- Witness for C10: the entry appended to the empty log is returned and
found by get. -/
theorem append_returns_retrievable_entry_witness :
    Log.get exAppSt exAppEntry.hash = some exAppEntry ∧
    jsGet exAppSt.headsIndex exAppEntry.hash = some exAppEntry ∧
    exAppEntry.id = exLogEmpty.id ∧ exAppEntry.payload = "p" ∧
    exAppEntry.clock = exAppSt.clock :=
  append_returns_retrievable_entry envOkApp exLogEmpty "p" 1 exAppSt exAppEntry rfl

/-! ### Claims about join preconditions and gates (C5, C1) -/

/-- C5: joining a log whose id differs is a silent no-op: no error is
raised and the joining log's entire state is unchanged. -/
theorem join_id_mismatch_silent_noop (env : JoinEnv) (st other : LogState)
    (size : Int) (hid : st.id ≠ other.id) :
    Log.join env st other size = (st, Except.ok ()) := by
  rw [Log.join, if_pos hid]

/-- Witness for C5: joining an id Y log into the id X empty log is a
silent no-op. -/
theorem join_id_mismatch_silent_noop_witness :
    Log.join envAllT exLogEmpty exLogIdY 5 = (exLogEmpty, Except.ok ()) :=
  join_id_mismatch_silent_noop envAllT exLogEmpty exLogIdY 5 (by decide)

/-- C1: when the ids match and any entry of the difference is denied by
the access controller or fails signature verification, the join raises an
error and the joining log's whole state (entryIndex, headsIndex,
nextsIndex, length, clock) is unchanged: both gates run over all new
items before any index mutation. -/
theorem join_gate_failure_leaves_log_unchanged (env : JoinEnv)
    (st other : LogState) (size : Int) (hid : st.id = other.id)
    (hfail : ∃ e ∈ jsVals (Log.difference other st),
      env.canAppend e = false ∨ env.verify e = false) :
    (Log.join env st other size).1 = st ∧
    ∃ msg, (Log.join env st other size).2 = Except.error msg := by
  obtain ⟨e, he, hor⟩ := hfail
  have hne : ¬st.id ≠ other.id := by simp [hid]
  simp only [Log.join, if_neg hne]
  rcases h1 : (jsVals (Log.difference other st)).find? (fun e => !env.canAppend e)
    with _ | x
  · have hall := List.find?_eq_none.1 h1
    have hv : env.verify e = false := by
      rcases hor with hc | hv
      · have := hall e he
        simp [hc] at this
      · exact hv
    rcases h2 : (jsVals (Log.difference other st)).find? (fun e => !env.verify e)
      with _ | y
    · have hall2 := List.find?_eq_none.1 h2
      have := hall2 e he
      simp [hv] at this
    · exact ⟨rfl, "Could not validate signature", rfl⟩
  · exact ⟨rfl, "Append not permitted", rfl⟩

/-- Witness for C1: joining exLogB into the empty log under a denying
access controller errors out and leaves the empty log unchanged. -/
theorem join_gate_failure_leaves_log_unchanged_witness :
    (Log.join envDenyJoin exLogEmpty exLogB 7).1 = exLogEmpty ∧
    ∃ msg, (Log.join envDenyJoin exLogEmpty exLogB 7).2 = Except.error msg :=
  join_gate_failure_leaves_log_unchanged envDenyJoin exLogEmpty exLogB 7 rfl
    ⟨exY, by decide, Or.inl rfl⟩

/-! ### Claims about findHeads (C7) -/

/-- C7 (counterexample): the claim says findHeads returns the heads sorted
by clock.id in descending string order, but the boolean comparator
compareIds makes the JS sort behave ascending: on two unreferenced entries
with clock ids A and B the result [exA, exB] is not descending. -/
theorem findHeads_not_sorted_descending_ce :
    ¬List.Sorted (fun a b : Entry => b.clock.id ≤ a.clock.id)
      (Log.findHeads [exA, exB]) := by
  intro h
  have h1 : Log.findHeads [exA, exB] = [exA, exB] := by decide
  rw [h1] at h
  have h2 := List.rel_of_sorted_cons h exB (by simp)
  have hAB : exA.clock.id < exB.clock.id := String.lt_iff_toList_lt.2 (by decide)
  exact absurd h2 (not_le.mpr hAB)

/-- C7 (amended): findHeads returns exactly those input entries whose hash
appears in no input entry's next list, and the returned list is sorted by
clock.id in ascending string order (idLe), because the boolean comparator
compareIds acts as an ascending stable sort. -/
theorem findHeads_exact_and_ascending (entries : List Entry) :
    (∀ e, e ∈ Log.findHeads entries ↔
      e ∈ entries ∧ ∀ f ∈ entries, e.hash ∉ f.next) ∧
    List.Sorted idLe (Log.findHeads entries) :=
  ⟨fun e => mem_findHeads entries e, sorted_findHeads entries⟩

/-! ### Claims about traverse (C8) -/

theorem mem_jsVals_jsSet {α : Type} {m : JsMap α} {k : String} {v val : α}
    (h : val ∈ jsVals (jsSet m k v)) : val ∈ jsVals m ∨ val = v := by
  rw [jsSet] at h
  split at h
  · rcases List.mem_map.1 h with ⟨q, hq, he⟩
    rcases List.mem_map.1 hq with ⟨p, hp, he2⟩
    by_cases hpk : p.1 = k
    · rw [← he2] at he
      simp [hpk] at he
      exact Or.inr he.symm
    · rw [← he2] at he
      simp [hpk] at he
      exact Or.inl (by rw [← he]; exact List.mem_map_of_mem Prod.snd hp)
  · rw [jsVals_append] at h
    rcases List.mem_append.1 h with h1 | h1
    · exact Or.inl h1
    · simp [jsVals] at h1
      exact Or.inr h1

theorem travPush_stack_subset (nextEntries : List Entry)
    (s : List Entry) (t : List String) :
    ∀ e ∈ (nextEntries.foldl
      (fun (acc : List Entry × List String) f =>
        if f.hash ∈ acc.2 then acc
        else (sortLwwDesc (f :: acc.1), f.hash :: acc.2)) (s, t)).1,
      e ∈ s ∨ e ∈ nextEntries := by
  induction nextEntries generalizing s t with
  | nil => exact fun e he => Or.inl he
  | cons f fs ih =>
    intro e he
    simp only [List.foldl_cons] at he
    by_cases hf : f.hash ∈ t
    · rw [if_pos hf] at he
      rcases ih s t e he with h1 | h1
      · exact Or.inl h1
      · exact Or.inr (List.mem_cons_of_mem f h1)
    · rw [if_neg hf] at he
      rcases ih (sortLwwDesc (f :: s)) (f.hash :: t) e he with h1 | h1
      · rcases List.mem_cons.1 ((mem_sortLwwDesc _ e).1 h1) with h2 | h2
        · exact Or.inr (by rw [h2]; exact List.mem_cons_self f fs)
        · exact Or.inl h2
      · exact Or.inr (List.mem_cons_of_mem f h1)

theorem travLoop_succ (m : JsMap Entry) (fuel : Nat) (stack : List Entry)
    (traversed : List String) (res : JsMap Entry) (count : Nat) (amount : Int) :
    Log.travLoop m (fuel + 1) stack traversed res count amount =
      if amount = -1 ∨ (count : Int) < amount then
        match stack with
        | [] => res
        | e :: rest =>
          let res2 := jsSet res e.hash e
          let nextEntries := e.next.filterMap (fun p => jsGet m p)
          let pushed := nextEntries.foldl
            (fun (acc : List Entry × List String) f =>
              if f.hash ∈ acc.2 then acc
              else (sortLwwDesc (f :: acc.1), f.hash :: acc.2))
            (rest, traversed)
          Log.travLoop m fuel pushed.1 pushed.2 res2 (count + 1) amount
      else res := rfl

theorem travLoop_nodup_prov (m : JsMap Entry) (P : Entry → Prop) :
    ∀ (fuel : Nat) (stack : List Entry) (traversed : List String)
      (res : JsMap Entry) (count : Nat) (amount : Int),
      (jsKeys res).Nodup →
      (∀ e ∈ stack, P e ∨ e ∈ jsVals m) →
      (∀ e ∈ jsVals res, P e ∨ e ∈ jsVals m) →
      (jsKeys (Log.travLoop m fuel stack traversed res count amount)).Nodup ∧
      ∀ e ∈ jsVals (Log.travLoop m fuel stack traversed res count amount),
        P e ∨ e ∈ jsVals m := by
  intro fuel
  induction fuel with
  | zero => exact fun stack traversed res count amount h1 _ h3 => ⟨h1, h3⟩
  | succ fuel ih =>
    intro stack traversed res count amount h1 h2 h3
    rw [travLoop_succ]
    split
    · match stack with
      | [] => exact ⟨h1, h3⟩
      | e :: rest =>
        simp only []
        apply ih
        · exact nodup_jsKeys_jsSet e.hash e h1
        · intro f hf
          rcases travPush_stack_subset _ rest traversed f hf with hr | hr
          · exact h2 f (List.mem_cons_of_mem e hr)
          · rcases List.mem_filterMap.1 hr with ⟨p, _, hp⟩
            exact Or.inr (mem_jsVals_of_jsGet hp)
        · intro f hf
          rcases mem_jsVals_jsSet hf with hr | hr
          · exact h3 f hr
          · rw [hr]
            exact h2 e (List.mem_cons_self e rest)
    · exact ⟨h1, h3⟩

/-- C8 (counterexample): the claim says traverse never pops and counts an
entry twice, so with amount ≥ 0 the result holds min(amount, reachable)
distinct entries.  But roots are never marked as traversed: on the chain
exE3 → exE2 → exE1 with roots [exE3, exE2], exE2 is pushed again while
processing exE3 and popped (and counted) twice, so traverse with amount 3
returns only 2 entries although 3 are reachable (the unbounded traverse
returns all 3). -/
theorem traverse_counts_root_twice_ce :
    (jsVals (Log.traverse exLogChain [exE3, exE2] 3)).length = 2 ∧
    (jsVals (Log.traverse exLogChain [exE3, exE2] (-1))).length = 3 := by
  exact ⟨rfl, rfl⟩

/-- C8 (amended): every entry recorded by traverse appears exactly once in
the result (its keys are distinct), and every recorded entry is a root or
comes from the entry index; however an entry listed in roots may be popped
from the frontier and counted twice — once as a root and once after being
re-pushed by a successor — so with amount ≥ 0 the result may hold fewer
than min(amount, reachable) distinct entries. -/
theorem traverse_result_nodup_and_from_log (st : LogState)
    (roots : List Entry) (amount : Int) :
    (jsKeys (Log.traverse st roots amount)).Nodup ∧
    ∀ e ∈ jsVals (Log.traverse st roots amount),
      e ∈ roots ∨ e ∈ jsVals st.entryIndex := by
  apply travLoop_nodup_prov st.entryIndex (fun e => e ∈ roots)
  · simp [jsKeys]
  · exact fun e he => Or.inl ((mem_sortLwwDesc roots e).1 he)
  · simp [jsVals]

/-! ### The difference loop: auxiliary counting lemmas -/

theorem length_filter_mono {α : Type} {p q : α → Bool} (l : List α)
    (h : ∀ x ∈ l, p x = true → q x = true) :
    (l.filter p).length ≤ (l.filter q).length := by
  induction l with
  | nil => exact le_refl _
  | cons x rest ih =>
    have ih2 := ih (fun y hy => h y (List.mem_cons_of_mem x hy))
    rcases hp : p x with _ | _
    · rcases hq : q x with _ | _
      · rw [List.filter_cons_of_neg (by simp [hp]),
          List.filter_cons_of_neg (by simp [hq])]
        exact ih2
      · rw [List.filter_cons_of_neg (by simp [hp]),
          List.filter_cons_of_pos (by simp [hq]), List.length_cons]
        exact le_trans ih2 (Nat.le_succ _)
    · have hq := h x (List.mem_cons_self x rest) hp
      rw [List.filter_cons_of_pos (by simp [hp]),
        List.filter_cons_of_pos (by simp [hq]), List.length_cons, List.length_cons]
      exact Nat.succ_le_succ ih2

theorem length_filter_lt {α : Type} {p q : α → Bool} (l : List α)
    (h : ∀ x ∈ l, p x = true → q x = true) (x : α) (hx : x ∈ l)
    (hqx : q x = true) (hpx : p x = false) :
    (l.filter p).length < (l.filter q).length := by
  induction l with
  | nil => simp at hx
  | cons y rest ih =>
    rcases List.mem_cons.1 hx with h1 | h1
    · subst h1
      rw [List.filter_cons_of_neg (by simp [hpx]),
        List.filter_cons_of_pos (by simp [hqx]), List.length_cons]
      exact Nat.lt_succ_of_le
        (length_filter_mono rest (fun z hz => h z (List.mem_cons_of_mem _ hz)))
    · have ih2 := ih (fun z hz => h z (List.mem_cons_of_mem y hz)) h1
      rcases hp : p y with _ | _
      · rcases hqy : q y with _ | _
        · rw [List.filter_cons_of_neg (by simp [hp]),
            List.filter_cons_of_neg (by simp [hqy])]
          exact ih2
        · rw [List.filter_cons_of_neg (by simp [hp]),
            List.filter_cons_of_pos (by simp [hqy]), List.length_cons]
          exact Nat.lt_succ_of_lt ih2
      · have hqy := h y (List.mem_cons_self y rest) hp
        rw [List.filter_cons_of_pos (by simp [hp]),
          List.filter_cons_of_pos (by simp [hqy]), List.length_cons, List.length_cons]
        exact Nat.succ_lt_succ ih2

theorem length_filter_cons_drop {U t : List String} {q : String}
    (hq : q ∈ U) (hqt : q ∉ t) :
    (U.filter (fun p => !decide (p ∈ q :: t))).length + 1 ≤
      (U.filter (fun p => !decide (p ∈ t))).length := by
  refine Nat.succ_le_of_lt (length_filter_lt U ?_ q hq (by simp [hqt]) (by simp))
  intro x _ hx
  simp only [Bool.not_eq_true', decide_eq_false_iff_not, List.mem_cons] at hx ⊢
  exact fun hxt => hx (Or.inr hxt)

theorem length_filter_anti_trav {U t t2 : List String} (h : ∀ x ∈ t, x ∈ t2) :
    (U.filter (fun p => !decide (p ∈ t2))).length ≤
      (U.filter (fun p => !decide (p ∈ t))).length := by
  refine length_filter_mono U ?_
  intro x _ hx
  simp only [Bool.not_eq_true', decide_eq_false_iff_not] at hx ⊢
  exact fun hxt => hx (h x hxt)

/-! ### The difference loop: pushNexts lemmas -/

theorem pushNexts_stack_sub (b : LogState) (ns : List String) :
    ∀ (stack traversed : List String), ∀ q ∈ stack,
      q ∈ (Log.pushNexts b ns stack traversed).1 := by
  induction ns with
  | nil => exact fun stack traversed q hq => hq
  | cons p ps ih =>
    intro stack traversed q hq
    rw [Log.pushNexts]
    split
    · exact ih stack traversed q hq
    · exact ih (stack ++ [p]) (p :: traversed) q (List.mem_append_left _ hq)

theorem pushNexts_trav_sub (b : LogState) (ns : List String) :
    ∀ (stack traversed : List String), ∀ q ∈ traversed,
      q ∈ (Log.pushNexts b ns stack traversed).2 := by
  induction ns with
  | nil => exact fun stack traversed q hq => hq
  | cons p ps ih =>
    intro stack traversed q hq
    rw [Log.pushNexts]
    split
    · exact ih stack traversed q hq
    · exact ih (stack ++ [p]) (p :: traversed) q (List.mem_cons_of_mem p hq)

theorem pushNexts_trav_src (b : LogState) (ns : List String) :
    ∀ (stack traversed : List String), ∀ q ∈ (Log.pushNexts b ns stack traversed).2,
      q ∈ traversed ∨ q ∈ (Log.pushNexts b ns stack traversed).1 := by
  induction ns with
  | nil => exact fun stack traversed q hq => Or.inl hq
  | cons p ps ih =>
    intro stack traversed q hq
    rw [Log.pushNexts] at hq ⊢
    by_cases hcond : p ∈ traversed ∨ jsGet b.entryIndex p ≠ none
    · rw [if_pos hcond] at hq ⊢
      exact ih stack traversed q hq
    · rw [if_neg hcond] at hq ⊢
      rcases ih (stack ++ [p]) (p :: traversed) q hq with h1 | h1
      · rcases List.mem_cons.1 h1 with h2 | h2
        · refine Or.inr ?_
          rw [h2]
          exact pushNexts_stack_sub b ps _ _ p (List.mem_append_right _ (by simp))
        · exact Or.inl h2
      · exact Or.inr h1

theorem pushNexts_covers (b : LogState) (ns : List String) :
    ∀ (stack traversed : List String), ∀ q ∈ ns,
      q ∈ (Log.pushNexts b ns stack traversed).1 ∨ q ∈ traversed ∨
        jsGet b.entryIndex q ≠ none := by
  induction ns with
  | nil => intro stack traversed q hq; simp at hq
  | cons p ps ih =>
    intro stack traversed q hq
    rw [Log.pushNexts]
    split
    · rename_i hcond
      rcases List.mem_cons.1 hq with h1 | h1
      · subst h1
        rcases hcond with h2 | h2
        · exact Or.inr (Or.inl h2)
        · exact Or.inr (Or.inr h2)
      · exact ih stack traversed q h1
    · rcases List.mem_cons.1 hq with h1 | h1
      · subst h1
        exact Or.inl (pushNexts_stack_sub b ps _ _ q (List.mem_append_right _ (by simp)))
      · rcases ih (stack ++ [p]) (p :: traversed) q h1 with h2 | h2 | h2
        · exact Or.inl h2
        · rcases List.mem_cons.1 h2 with h3 | h3
          · subst h3
            exact Or.inl (pushNexts_stack_sub b ps _ _ q (List.mem_append_right _ (by simp)))
          · exact Or.inr (Or.inl h3)
        · exact Or.inr (Or.inr h2)

theorem pushNexts_measure (b : LogState) (U : List String) (ns : List String)
    (hU : ∀ q ∈ ns, q ∈ U) :
    ∀ (stack traversed : List String),
      (Log.pushNexts b ns stack traversed).1.length +
        2 * (U.filter (fun p => !decide (p ∈ (Log.pushNexts b ns stack traversed).2))).length ≤
      stack.length + 2 * (U.filter (fun p => !decide (p ∈ traversed))).length := by
  induction ns with
  | nil => exact fun stack traversed => le_refl _
  | cons p ps ih =>
    intro stack traversed
    rw [Log.pushNexts]
    split
    · exact ih (fun q hq => hU q (List.mem_cons_of_mem p hq)) stack traversed
    · rename_i hcond
      push_neg at hcond
      have step := ih (fun q hq => hU q (List.mem_cons_of_mem p hq))
        (stack ++ [p]) (p :: traversed)
      refine le_trans step ?_
      have hdrop := length_filter_cons_drop (t := traversed)
        (hU p (List.mem_cons_self p ps)) hcond.1
      simp only [List.length_append, List.length_cons, List.length_nil]
      omega

/-! ### The difference loop: unfolding equations and invariants -/

theorem mem_jsSet {α : Type} {m : JsMap α} {k : String} {v : α}
    {p : String × α} (h : p ∈ jsSet m k v) : p = (k, v) ∨ p ∈ m := by
  rw [jsSet] at h
  split at h
  · rcases List.mem_map.1 h with ⟨q, hq, he⟩
    by_cases hqk : q.1 = k
    · simp only [hqk, if_pos rfl] at he
      exact Or.inl he.symm
    · simp only [hqk, if_neg hqk] at he
      exact Or.inr (he ▸ hq)
  · rcases List.mem_append.1 h with h1 | h1
    · exact Or.inr h1
    · simp at h1
      exact Or.inl h1

theorem diffLoop_zero (a b : LogState) (stack traversed : List String)
    (res : JsMap Entry) : Log.diffLoop a b 0 stack traversed res = res := rfl

theorem diffLoop_nil (a b : LogState) (fuel : Nat) (traversed : List String)
    (res : JsMap Entry) : Log.diffLoop a b (fuel + 1) [] traversed res = res := rfl

theorem diffLoop_cons (a b : LogState) (fuel : Nat) (hash : String)
    (rest traversed : List String) (res : JsMap Entry) :
    Log.diffLoop a b (fuel + 1) (hash :: rest) traversed res =
      match jsGet a.entryIndex hash with
      | some entry =>
        if jsGet b.entryIndex hash = none ∧ entry.id = b.id then
          Log.diffLoop a b fuel
            (Log.pushNexts b entry.next rest (entry.hash :: traversed)).1
            (Log.pushNexts b entry.next rest (entry.hash :: traversed)).2
            (jsSet res entry.hash entry)
        else Log.diffLoop a b fuel rest traversed res
      | none => Log.diffLoop a b fuel rest traversed res := rfl

theorem diffLoop_cons_some (a b : LogState) (fuel : Nat) (hash : String)
    (rest traversed : List String) (res : JsMap Entry) (entry : Entry)
    (hget : jsGet a.entryIndex hash = some entry) :
    Log.diffLoop a b (fuel + 1) (hash :: rest) traversed res =
      if jsGet b.entryIndex hash = none ∧ entry.id = b.id then
        Log.diffLoop a b fuel
          (Log.pushNexts b entry.next rest (entry.hash :: traversed)).1
          (Log.pushNexts b entry.next rest (entry.hash :: traversed)).2
          (jsSet res entry.hash entry)
      else Log.diffLoop a b fuel rest traversed res := by
  rw [diffLoop_cons, hget]

theorem diffLoop_cons_none (a b : LogState) (fuel : Nat) (hash : String)
    (rest traversed : List String) (res : JsMap Entry)
    (hget : jsGet a.entryIndex hash = none) :
    Log.diffLoop a b (fuel + 1) (hash :: rest) traversed res =
      Log.diffLoop a b fuel rest traversed res := by
  rw [diffLoop_cons, hget]

theorem diffLoop_keys_mono (a b : LogState) :
    ∀ (fuel : Nat) (stack traversed : List String) (res : JsMap Entry),
      ∀ k ∈ jsKeys res, k ∈ jsKeys (Log.diffLoop a b fuel stack traversed res) := by
  intro fuel
  induction fuel with
  | zero => exact fun stack traversed res k hk => hk
  | succ fuel ih =>
    intro stack traversed res k hk
    match stack with
    | [] => exact hk
    | hash :: rest =>
      rcases hget : jsGet a.entryIndex hash with _ | entry
      · rw [diffLoop_cons_none a b fuel hash rest traversed res hget]
        exact ih rest traversed res k hk
      · rw [diffLoop_cons_some a b fuel hash rest traversed res entry hget]
        by_cases hcond : jsGet b.entryIndex hash = none ∧ entry.id = b.id
        · rw [if_pos hcond]
          refine ih _ _ _ k ?_
          exact (mem_jsKeys_jsSet res entry.hash k entry).2 (Or.inl hk)
        · rw [if_neg hcond]
          exact ih rest traversed res k hk

theorem settled_mono {a b : LogState} {res res2 : JsMap Entry}
    (hsub : ∀ k ∈ jsKeys res, k ∈ jsKeys res2) {q : String}
    (h : Settled a b res q) : Settled a b res2 q := by
  rcases h with h | h
  · exact Or.inl (hsub q h)
  · exact Or.inr h

theorem diffLoop_post (a b : LogState)
    (htag : ∀ p ∈ a.entryIndex, (p.2 : Entry).hash = p.1) :
    ∀ (fuel : Nat) (stack traversed : List String) (res : JsMap Entry),
      Log.diffMeasure a stack traversed < fuel →
      (jsKeys res).Nodup →
      (∀ p ∈ res, jsGet a.entryIndex p.1 = some p.2 ∧
        jsGet b.entryIndex p.1 = none ∧
        (p.2 : Entry).id = b.id ∧ (p.2 : Entry).hash = p.1) →
      (∀ e ∈ jsVals res, ∀ q ∈ e.next, Settled a b res q ∨ q ∈ stack) →
      (∀ q ∈ traversed, Settled a b res q ∨ q ∈ stack) →
      (jsKeys (Log.diffLoop a b fuel stack traversed res)).Nodup ∧
      (∀ p ∈ Log.diffLoop a b fuel stack traversed res,
        jsGet a.entryIndex p.1 = some p.2 ∧ jsGet b.entryIndex p.1 = none ∧
        (p.2 : Entry).id = b.id ∧ (p.2 : Entry).hash = p.1) ∧
      (∀ e ∈ jsVals (Log.diffLoop a b fuel stack traversed res), ∀ q ∈ e.next,
        Settled a b (Log.diffLoop a b fuel stack traversed res) q) ∧
      (∀ q ∈ stack, Settled a b (Log.diffLoop a b fuel stack traversed res) q) := by
  intro fuel
  induction fuel with
  | zero =>
    intro stack traversed res hm
    exact absurd hm (Nat.not_lt_zero _)
  | succ fuel ih =>
    intro stack traversed res hm hnd hI1 hI2 hI3
    match stack with
    | [] =>
      refine ⟨hnd, hI1, ?_, by simp⟩
      intro e he q hq
      rcases hI2 e he q hq with h1 | h1
      · exact h1
      · simp at h1
    | hash :: rest =>
      have hmcons : Log.diffMeasure a (hash :: rest) traversed =
          Log.diffMeasure a rest traversed + 1 := by
        rw [Log.diffMeasure, Log.diffMeasure, List.length_cons]
        omega
      rcases hget : jsGet a.entryIndex hash with _ | entry
      · rw [diffLoop_cons_none a b fuel hash rest traversed res hget]
        have hDead : Dead a b hash := by
          refine Or.inr (fun e hesome => ?_)
          rw [hget] at hesome
          exact absurd hesome (by simp)
        have hm2 : Log.diffMeasure a rest traversed < fuel := by omega
        obtain ⟨c1, c2, c3, c4⟩ := ih rest traversed res hm2 hnd hI1
          (fun e he q hq => by
            rcases hI2 e he q hq with h1 | h1
            · exact Or.inl h1
            · rcases List.mem_cons.1 h1 with h2 | h2
              · exact Or.inl (Or.inr (by rw [h2]; exact hDead))
              · exact Or.inr h2)
          (fun q hq => by
            rcases hI3 q hq with h1 | h1
            · exact Or.inl h1
            · rcases List.mem_cons.1 h1 with h2 | h2
              · exact Or.inl (Or.inr (by rw [h2]; exact hDead))
              · exact Or.inr h2)
        refine ⟨c1, c2, c3, ?_⟩
        intro q hq
        rcases List.mem_cons.1 hq with h2 | h2
        · exact Or.inr (by rw [h2]; exact hDead)
        · exact c4 q h2
      · have hhash : entry.hash = hash := htag (hash, entry) (jsGet_mem hget)
        by_cases hcond : jsGet b.entryIndex hash = none ∧ entry.id = b.id
        · rw [diffLoop_cons_some a b fuel hash rest traversed res entry hget,
            if_pos hcond]
          have hkeysub : ∀ k ∈ jsKeys res,
              k ∈ jsKeys (jsSet res entry.hash entry) :=
            fun k hk => (mem_jsKeys_jsSet res entry.hash k entry).2 (Or.inl hk)
          have hnewkey : entry.hash ∈ jsKeys (jsSet res entry.hash entry) :=
            (mem_jsKeys_jsSet res entry.hash entry.hash entry).2 (Or.inr rfl)
          -- conversion of stack or traversal facts into the new state
          have hconv : ∀ q : String,
              (Settled a b res q ∨ q ∈ hash :: rest) →
              Settled a b (jsSet res entry.hash entry) q ∨
                q ∈ (Log.pushNexts b entry.next rest (entry.hash :: traversed)).1 := by
            intro q hq
            rcases hq with h1 | h1
            · exact Or.inl (settled_mono hkeysub h1)
            · rcases List.mem_cons.1 h1 with h2 | h2
              · refine Or.inl (Or.inl ?_)
                rw [h2, ← hhash]
                exact hnewkey
              · exact Or.inr (pushNexts_stack_sub b entry.next rest _ q h2)
          have htrav2 : ∀ q ∈ entry.hash :: traversed,
              Settled a b (jsSet res entry.hash entry) q ∨
                q ∈ (Log.pushNexts b entry.next rest (entry.hash :: traversed)).1 := by
            intro q hq
            rcases List.mem_cons.1 hq with h2 | h2
            · refine Or.inl (Or.inl ?_)
              rw [h2]
              exact hnewkey
            · exact hconv q (hI3 q h2)
          -- measure decrease
          have hU : ∀ q ∈ entry.next, q ∈ Log.allNexts a.entryIndex := by
            intro q hq
            refine List.mem_flatMap.2 ⟨entry, ?_, hq⟩
            exact List.mem_map_of_mem Prod.snd (jsGet_mem hget)
          have hmeas := pushNexts_measure b (Log.allNexts a.entryIndex) entry.next
            hU rest (entry.hash :: traversed)
          have hanti := @length_filter_anti_trav
            (Log.allNexts a.entryIndex) traversed (entry.hash :: traversed)
            (fun x hx => List.mem_cons_of_mem entry.hash hx)
          have hm2 : Log.diffMeasure a
              (Log.pushNexts b entry.next rest (entry.hash :: traversed)).1
              (Log.pushNexts b entry.next rest (entry.hash :: traversed)).2 < fuel := by
            have hm3 : rest.length + 1 +
                2 * ((Log.allNexts a.entryIndex).filter
                  (fun p => !decide (p ∈ traversed))).length < fuel + 1 := by
              rw [Log.diffMeasure, List.length_cons] at hm
              omega
            rw [Log.diffMeasure]
            omega
          -- invariants for the recursive call
          obtain ⟨c1, c2, c3, c4⟩ := ih
            (Log.pushNexts b entry.next rest (entry.hash :: traversed)).1
            (Log.pushNexts b entry.next rest (entry.hash :: traversed)).2
            (jsSet res entry.hash entry)
            hm2
            (nodup_jsKeys_jsSet entry.hash entry hnd)
            (by
              intro p hp
              rcases mem_jsSet hp with h1 | h1
              · rw [h1]
                refine ⟨?_, ?_, hcond.2, rfl⟩
                · rw [hhash]; exact hget
                · rw [hhash]; exact hcond.1
              · exact hI1 p h1)
            (by
              intro e he q hq
              rcases mem_jsVals_jsSet he with h1 | h1
              · exact hconv q (hI2 e h1 q hq)
              · rw [h1] at hq
                rcases pushNexts_covers b entry.next rest
                  (entry.hash :: traversed) q hq with h2 | h2 | h2
                · exact Or.inr h2
                · exact htrav2 q h2
                · exact Or.inl (Or.inr (Or.inl h2)))
            (by
              intro q hq
              rcases pushNexts_trav_src b entry.next rest
                (entry.hash :: traversed) q hq with h1 | h1
              · exact htrav2 q h1
              · exact Or.inr h1)
          refine ⟨c1, c2, c3, ?_⟩
          intro q hq
          rcases List.mem_cons.1 hq with h2 | h2
          · refine Or.inl ?_
            refine diffLoop_keys_mono a b fuel _ _ _ q ?_
            rw [h2, ← hhash]
            exact hnewkey
          · exact c4 q (pushNexts_stack_sub b entry.next rest _ q h2)
        · rw [diffLoop_cons_some a b fuel hash rest traversed res entry hget,
            if_neg hcond]
          have hDead : Dead a b hash := by
            by_cases hb : jsGet b.entryIndex hash = none
            · refine Or.inr (fun e hesome hid => ?_)
              rw [hget] at hesome
              injection hesome with he
              exact hcond ⟨hb, by rw [he]; exact hid⟩
            · exact Or.inl hb
          have hm2 : Log.diffMeasure a rest traversed < fuel := by omega
          obtain ⟨c1, c2, c3, c4⟩ := ih rest traversed res hm2 hnd hI1
            (fun e he q hq => by
              rcases hI2 e he q hq with h1 | h1
              · exact Or.inl h1
              · rcases List.mem_cons.1 h1 with h2 | h2
                · exact Or.inl (Or.inr (by rw [h2]; exact hDead))
                · exact Or.inr h2)
            (fun q hq => by
              rcases hI3 q hq with h1 | h1
              · exact Or.inl h1
              · rcases List.mem_cons.1 h1 with h2 | h2
                · exact Or.inl (Or.inr (by rw [h2]; exact hDead))
                · exact Or.inr h2)
          refine ⟨c1, c2, c3, ?_⟩
          intro q hq
          rcases List.mem_cons.1 hq with h2 | h2
          · exact Or.inr (by rw [h2]; exact hDead)
          · exact c4 q h2

theorem difference_spec (a b : LogState)
    (htag : ∀ p ∈ a.entryIndex, (p.2 : Entry).hash = p.1) :
    (jsKeys (Log.difference a b)).Nodup ∧
    (∀ p ∈ Log.difference a b,
      jsGet a.entryIndex p.1 = some p.2 ∧ jsGet b.entryIndex p.1 = none ∧
      (p.2 : Entry).id = b.id ∧ (p.2 : Entry).hash = p.1) ∧
    (∀ e ∈ jsVals (Log.difference a b), ∀ q ∈ e.next,
      Settled a b (Log.difference a b) q) ∧
    (∀ q ∈ jsKeys a.headsIndex, Settled a b (Log.difference a b) q) := by
  have hm : Log.diffMeasure a (jsKeys a.headsIndex) [] < Log.diffFuel a := by
    rw [Log.diffMeasure, Log.diffFuel]
    have h1 : (jsKeys a.headsIndex).length = a.headsIndex.length := jsKeys_length _
    have h2 : ((Log.allNexts a.entryIndex).filter
        (fun p => !decide (p ∈ ([] : List String)))).length =
        (Log.allNexts a.entryIndex).length := by
      simp
    omega
  exact diffLoop_post a b htag (Log.diffFuel a) (jsKeys a.headsIndex) [] []
    hm (by simp [jsKeys]) (by simp) (by simp [jsVals]) (by simp)

theorem difference_complete (a b : LogState) (rk : String → Nat)
    (hid : a.id = b.id)
    (htagA : ∀ p ∈ a.entryIndex, (p.2 : Entry).hash = p.1 ∧ (p.2 : Entry).id = a.id)
    (hndA : (jsKeys a.entryIndex).Nodup)
    (htagB : ∀ p ∈ b.entryIndex, (p.2 : Entry).hash = p.1)
    (hclosedB : ∀ e ∈ jsVals b.entryIndex, ∀ q ∈ e.next, q ∈ jsKeys b.entryIndex)
    (hcompat : ∀ e ∈ jsVals a.entryIndex, ∀ f ∈ jsVals b.entryIndex,
      e.hash = f.hash → e = f)
    (hrk : ∀ e ∈ jsVals a.entryIndex, ∀ q ∈ e.next, rk q < rk e.hash)
    (hheadsFull : ∀ p ∈ a.entryIndex, ¬Referenced a p.1 → p.1 ∈ jsKeys a.headsIndex) :
    ∀ k ∈ jsKeys a.entryIndex,
      k ∈ jsKeys b.entryIndex ∨ k ∈ jsKeys (Log.difference a b) := by
  obtain ⟨hN1, hN2, hN3, hN4⟩ := difference_spec a b (fun p hp => (htagA p hp).1)
  have hsettled : ∀ k, k ∈ jsKeys a.entryIndex →
      Settled a b (Log.difference a b) k →
      k ∈ jsKeys b.entryIndex ∨ k ∈ jsKeys (Log.difference a b) := by
    intro k hka hs
    rcases hs with h1 | h1
    · exact Or.inr h1
    · rcases h1 with h2 | h2
      · rcases hk : jsGet b.entryIndex k with _ | v
        · exact absurd hk h2
        · exact Or.inl (mem_jsKeys_of_jsGet hk)
      · obtain ⟨v, hv⟩ := jsGet_isSome_of_mem_keys hka
        have hid2 := (htagA (k, v) (jsGet_mem hv)).2
        exact absurd (hid2.trans hid) (h2 v hv)
  have hmemkeys : ∀ f ∈ jsVals a.entryIndex, f.hash ∈ jsKeys a.entryIndex := by
    intro f hf
    rcases (mem_jsVals_iff _ f).1 hf with ⟨kf, hkf2⟩
    have htg2 : f.hash = kf := (htagA (kf, f) hkf2).1
    rw [htg2]
    exact List.mem_map_of_mem Prod.fst hkf2
  have hgetself : ∀ f ∈ jsVals a.entryIndex, jsGet a.entryIndex f.hash = some f := by
    intro f hf
    rcases (mem_jsVals_iff _ f).1 hf with ⟨kf, hkf2⟩
    have htg2 : f.hash = kf := (htagA (kf, f) hkf2).1
    refine jsGet_of_mem_nodup ?_ hndA
    rw [← htg2] at hkf2
    exact hkf2
  have main : ∀ n, ∀ k, k ∈ jsKeys a.entryIndex → rankAbove a rk k ≤ n →
      k ∈ jsKeys b.entryIndex ∨ k ∈ jsKeys (Log.difference a b) := by
    intro n
    induction n with
    | zero =>
      intro k hka hcount
      by_cases href : Referenced a k
      · obtain ⟨f, hf, hkf⟩ := href
        have hrkk : rk k < rk f.hash := hrk f hf k hkf
        have hcf : rankAbove a rk f.hash < rankAbove a rk k := by
          refine length_filter_lt (jsVals a.entryIndex) ?_ f hf
            (by simp [hrkk]) (by simp)
          intro e _ he
          simp only [decide_eq_true_eq] at he ⊢
          omega
        exact absurd (lt_of_lt_of_le hcf hcount) (Nat.not_lt_zero _)
      · obtain ⟨v, hv⟩ := jsGet_isSome_of_mem_keys hka
        exact hsettled k hka (hN4 k (hheadsFull (k, v) (jsGet_mem hv) href))
    | succ n ihn =>
      intro k hka hcount
      by_cases href : Referenced a k
      · obtain ⟨f, hf, hkf⟩ := href
        have hrkk : rk k < rk f.hash := hrk f hf k hkf
        have hcf : rankAbove a rk f.hash < rankAbove a rk k := by
          refine length_filter_lt (jsVals a.entryIndex) ?_ f hf
            (by simp [hrkk]) (by simp)
          intro e _ he
          simp only [decide_eq_true_eq] at he ⊢
          omega
        rcases ihn f.hash (hmemkeys f hf) (by omega) with h1 | h1
        · obtain ⟨fb, hfb⟩ := jsGet_isSome_of_mem_keys h1
          have hfbtag : fb.hash = f.hash := htagB (f.hash, fb) (jsGet_mem hfb)
          have hfeq : f = fb :=
            hcompat f hf fb (mem_jsVals_of_jsGet hfb) hfbtag.symm
          refine Or.inl (hclosedB fb (mem_jsVals_of_jsGet hfb) k ?_)
          rw [← hfeq]
          exact hkf
        · obtain ⟨v, hv⟩ := jsGet_isSome_of_mem_keys h1
          have hsound := hN2 (f.hash, v) (jsGet_mem hv)
          have hvf : v = f := by
            have h3 := hsound.1
            rw [hgetself f hf] at h3
            injection h3 with h4
            exact h4.symm
          refine hsettled k hka ?_
          refine hN3 v (mem_jsVals_of_jsGet hv) k ?_
          rw [hvf]
          exact hkf
      · obtain ⟨v, hv⟩ := jsGet_isSome_of_mem_keys hka
        exact hsettled k hka (hN4 k (hheadsFull (k, v) (jsGet_mem hv) href))
  intro k hka
  exact main (rankAbove a rk k) k hka (le_refl _)

/-! ### Characterization of join when both gates pass -/

theorem join_ok_spec (env : JoinEnv) (st other : LogState) (size : Int)
    (hid : st.id = other.id)
    (hgates : ∀ e ∈ jsVals (Log.difference other st),
      env.canAppend e = true ∧ env.verify e = true) :
    Log.join env st other size =
      (Log.joinClock (if size > -1 then Log.joinTrunc (Log.joinMid st other) size
        else Log.joinMid st other), Except.ok ()) := by
  have hne : ¬st.id ≠ other.id := by simp [hid]
  simp only [Log.join, if_neg hne]
  have h1 : (jsVals (Log.difference other st)).find? (fun e => !env.canAppend e)
      = none :=
    List.find?_eq_none.2 (fun e he => by simp [(hgates e he).1])
  have h2 : (jsVals (Log.difference other st)).find? (fun e => !env.verify e)
      = none :=
    List.find?_eq_none.2 (fun e he => by simp [(hgates e he).2])
  rw [h1, h2]

theorem addNexts_keys (h : String) (ns : List String) :
    ∀ (m : JsMap String) (q : String),
      q ∈ jsKeys (ns.foldl (fun m p => jsSet m p h) m) ↔
        q ∈ jsKeys m ∨ q ∈ ns := by
  induction ns with
  | nil => simp
  | cons p ps ih =>
    intro m q
    rw [List.foldl_cons, ih]
    rw [mem_jsKeys_jsSet]
    simp only [List.mem_cons]
    tauto

theorem joinFold_fst (st : LogState) (l : List Entry)
    (hall : ∀ e ∈ l, jsGet st.entryIndex e.hash = none) :
    ∀ (n0 : Nat) (m0 : JsMap String),
      (l.foldl (fun (acc : Nat × JsMap String) e =>
        ((if jsGet st.entryIndex e.hash = none then acc.1 + 1 else acc.1),
          e.next.foldl (fun m p => jsSet m p e.hash) acc.2)) (n0, m0)).1 =
      n0 + l.length := by
  induction l with
  | nil => intro n0 m0; rfl
  | cons e rest ih =>
    intro n0 m0
    rw [List.foldl_cons]
    rw [if_pos (hall e (List.mem_cons_self e rest))]
    rw [ih (fun f hf => hall f (List.mem_cons_of_mem e hf)) (n0 + 1) _]
    rw [List.length_cons]
    omega

theorem joinFold_snd_keys (st : LogState) (l : List Entry) :
    ∀ (n0 : Nat) (m0 : JsMap String) (q : String),
      q ∈ jsKeys ((l.foldl (fun (acc : Nat × JsMap String) e =>
        ((if jsGet st.entryIndex e.hash = none then acc.1 + 1 else acc.1),
          e.next.foldl (fun m p => jsSet m p e.hash) acc.2)) (n0, m0)).2) ↔
        q ∈ jsKeys m0 ∨ ∃ e ∈ l, q ∈ e.next := by
  induction l with
  | nil => simp
  | cons e rest ih =>
    intro n0 m0 q
    rw [List.foldl_cons, ih]
    rw [addNexts_keys]
    simp only [List.mem_cons]
    constructor
    · rintro ((h1 | h1) | ⟨f, hf, hq⟩)
      · exact Or.inl h1
      · exact Or.inr ⟨e, Or.inl rfl, h1⟩
      · exact Or.inr ⟨f, Or.inr hf, hq⟩
    · rintro (h1 | ⟨f, hf | hf, hq⟩)
      · exact Or.inl (Or.inl h1)
      · exact Or.inl (Or.inr (by rw [← hf]; exact hq))
      · exact Or.inr ⟨f, hf, hq⟩

theorem jsKeys_foldl_jsSet_of_nodup (l : List Entry) :
    ∀ (m : JsMap Entry), (jsKeys m ++ l.map Entry.hash).Nodup →
      jsKeys (l.foldl (fun m e => jsSet m e.hash e) m) =
        jsKeys m ++ l.map Entry.hash := by
  induction l with
  | nil => intro m _; simp
  | cons e rest ih =>
    intro m hnd
    rw [List.foldl_cons]
    have hfresh : e.hash ∉ jsKeys m := by
      rw [List.map_cons] at hnd
      intro hmem
      rcases List.nodup_append.1 hnd with ⟨_, _, hdisj⟩
      exact hdisj hmem (by simp)
    rw [jsSet_of_not_mem_keys e hfresh] at *
    have hnd2 : (jsKeys (m ++ [(e.hash, e)]) ++ rest.map Entry.hash).Nodup := by
      rw [jsKeys_append]
      have : jsKeys m ++ jsKeys [(e.hash, e)] ++ rest.map Entry.hash =
          jsKeys m ++ (e.hash :: rest.map Entry.hash) := by
        simp [jsKeys]
      rw [this]
      rw [List.map_cons] at hnd
      exact hnd
    rw [ih (m ++ [(e.hash, e)]) hnd2]
    rw [jsKeys_append]
    simp [jsKeys]

theorem jsKeys_entriesToMap_of_nodup (l : List Entry)
    (hnd : (l.map Entry.hash).Nodup) :
    jsKeys (entriesToMap l) = l.map Entry.hash := by
  have := jsKeys_foldl_jsSet_of_nodup l [] (by simpa [jsKeys] using hnd)
  simpa [jsKeys, entriesToMap] using this

theorem joinMid_entryIndex (st other : LogState) :
    (Log.joinMid st other).entryIndex =
      jsAssign st.entryIndex (Log.difference other st) := rfl

theorem joinMid_length (st other : LogState) :
    (Log.joinMid st other).length =
      ((jsVals (Log.difference other st)).foldl
        (fun (acc : Nat × JsMap String) e =>
          ((if jsGet st.entryIndex e.hash = none then acc.1 + 1 else acc.1),
            e.next.foldl (fun m p => jsSet m p e.hash) acc.2))
        (st.length, st.nextsIndex)).1 := rfl

theorem joinMid_nextsIndex (st other : LogState) :
    (Log.joinMid st other).nextsIndex =
      ((jsVals (Log.difference other st)).foldl
        (fun (acc : Nat × JsMap String) e =>
          ((if jsGet st.entryIndex e.hash = none then acc.1 + 1 else acc.1),
            e.next.foldl (fun m p => jsSet m p e.hash) acc.2))
        (st.length, st.nextsIndex)).2 := rfl

theorem joinMid_headsIndex (st other : LogState) :
    (Log.joinMid st other).headsIndex =
      entriesToMap
        (((Log.findHeads (jsVals (jsAssign (jsAssign [] st.headsIndex)
            other.headsIndex))).filter
          (fun e => !(((jsVals (Log.difference other st)).foldl
            (fun acc e => acc ++ e.next) []).contains e.hash))).filter
          (fun e => decide (jsGet
            ((jsVals (Log.difference other st)).foldl
              (fun (acc : Nat × JsMap String) e =>
                ((if jsGet st.entryIndex e.hash = none then acc.1 + 1 else acc.1),
                  e.next.foldl (fun m p => jsSet m p e.hash) acc.2))
              (st.length, st.nextsIndex)).2 e.hash = none))) := rfl

theorem joinMid_id (st other : LogState) :
    (Log.joinMid st other).id = st.id := rfl

theorem joinMid_identity (st other : LogState) :
    (Log.joinMid st other).identity = st.identity := rfl

theorem joinMid_clock (st other : LogState) :
    (Log.joinMid st other).clock = st.clock := rfl

theorem difference_vals_absent (other st : LogState)
    (htagO : ∀ p ∈ other.entryIndex, (p.2 : Entry).hash = p.1) :
    ∀ e ∈ jsVals (Log.difference other st),
      jsGet st.entryIndex e.hash = none := by
  obtain ⟨_, hN2, _, _⟩ := difference_spec other st htagO
  intro e he
  rcases (mem_jsVals_iff _ e).1 he with ⟨k, hk⟩
  have hs := hN2 (k, e) hk
  have hh : e.hash = k := hs.2.2.2
  rw [hh]
  exact hs.2.1

theorem difference_keys_disjoint (other st : LogState)
    (htagO : ∀ p ∈ other.entryIndex, (p.2 : Entry).hash = p.1) :
    ∀ q ∈ jsKeys (Log.difference other st), q ∉ jsKeys st.entryIndex := by
  obtain ⟨_, hN2, _, _⟩ := difference_spec other st htagO
  intro q hq hq2
  obtain ⟨v, hv⟩ := jsGet_isSome_of_mem_keys hq
  have hs := hN2 (q, v) (jsGet_mem hv)
  exact (jsGet_eq_none_iff _ _).1 hs.2.1 hq2

theorem lengthOk_joinMid (st other : LogState) (hlen : lengthOk st)
    (hnd : (jsKeys st.entryIndex).Nodup)
    (htagO : ∀ p ∈ other.entryIndex, (p.2 : Entry).hash = p.1) :
    lengthOk (Log.joinMid st other) := by
  obtain ⟨hN1, _, _, _⟩ := difference_spec other st htagO
  have hall := difference_vals_absent other st htagO
  have hdisj := difference_keys_disjoint other st htagO
  rw [lengthOk, joinMid_length, joinMid_entryIndex]
  rw [joinFold_fst st _ hall st.length st.nextsIndex]
  rw [jsAssign_of_disjoint hdisj hN1]
  rw [jsKeys_append]
  have hnodup : (jsKeys st.entryIndex ++ jsKeys (Log.difference other st)).Nodup := by
    rw [List.nodup_append]
    exact ⟨hnd, hN1, fun q hq hq2 => hdisj q hq2 hq⟩
  rw [List.dedup_eq_self.2 hnodup, List.length_append]
  rw [lengthOk] at hlen
  rw [List.dedup_eq_self.2 hnd] at hlen
  rw [jsVals_length, jsKeys_length st.entryIndex,
    jsKeys_length (Log.difference other st)]
  rw [jsKeys_length st.entryIndex] at hlen
  omega

theorem lengthOk_joinTrunc (st3 : LogState) (size : Int) :
    lengthOk (Log.joinTrunc st3 size) := by
  rw [lengthOk]
  show (jsVals (entriesToMap (Log.jsSliceNeg (Log.values st3) size))).length =
    (jsKeys (entriesToMap (Log.jsSliceNeg (Log.values st3) size))).dedup.length
  rw [List.dedup_eq_self.2 (nodup_jsKeys_entriesToMap _)]
  rw [jsVals_length, jsKeys_length]

/-! ### Claim C9: length versus entry index -/

/-- C9 (counterexample): the claim says length equals the number of
distinct keys of entryIndex at every observable state, including
construction from an entries array with duplicate hashes; but the
constructor sets length to the array length (src/log.js line 113), so a
log constructed from [exE1, exE1] has length 2 and a single key. -/
theorem constructor_duplicate_entries_length_ce :
    ¬lengthOk (Log.mkLog "A" "X" [exE1, exE1] none none) := by
  decide

/-- C9 (amended): the length attribute equals the number of distinct keys
of entryIndex at construction provided the entries array carries pairwise
distinct hashes (otherwise length is the array length, counting
duplicates); and the equality is preserved by every successful append
whose new hash is not already a key, and by every join against a log
whose entries are keyed by their own hash (any outcome, any size). -/
theorem length_matches_entry_index (identity logId : String)
    (entries : List Entry) (headsOpt : Option (List Entry))
    (clockOpt : Option Clock) (envA : AppendEnv) (stA : LogState)
    (payload : String) (pc : Nat) (st2 : LogState) (entry : Entry)
    (envJ : JoinEnv) (stJ other : LogState) (size : Int) :
    ((entries.map Entry.hash).Nodup →
      lengthOk (Log.mkLog identity logId entries headsOpt clockOpt)) ∧
    (lengthOk stA → (jsKeys stA.entryIndex).Nodup →
      Log.append envA stA payload pc = (st2, Except.ok entry) →
      entry.hash ∉ jsKeys stA.entryIndex → lengthOk st2) ∧
    (lengthOk stJ → (jsKeys stJ.entryIndex).Nodup →
      (∀ p ∈ other.entryIndex, (p.2 : Entry).hash = p.1) →
      lengthOk (Log.join envJ stJ other size).1) := by
  refine ⟨?_, ?_, ?_⟩
  · intro hnd
    show entries.length = (jsKeys (entriesToMap entries)).dedup.length
    rw [jsKeys_entriesToMap_of_nodup entries hnd]
    rw [List.dedup_eq_self.2 hnd, List.length_map]
  · intro hlen hnd happ hfresh
    obtain ⟨nexts, _, hidx, _, _, hlen2, _, _, _⟩ :=
      append_ok_spec envA stA payload pc st2 entry happ
    rw [lengthOk, hlen2, hidx]
    rw [jsSet_of_not_mem_keys entry hfresh, jsKeys_append]
    have hnodup : (jsKeys stA.entryIndex ++ jsKeys [(entry.hash, entry)]).Nodup := by
      rw [List.nodup_append]
      refine ⟨hnd, by simp [jsKeys], ?_⟩
      intro q hq hq2
      simp [jsKeys] at hq2
      rw [hq2] at hq
      exact hfresh hq
    rw [List.dedup_eq_self.2 hnodup, List.length_append]
    rw [lengthOk, List.dedup_eq_self.2 hnd] at hlen
    have h5 : (jsKeys [(entry.hash, entry)]).length = 1 := rfl
    rw [h5]
    omega
  · intro hlen hnd htagO
    by_cases hidm : stJ.id ≠ other.id
    · rw [Log.join, if_pos hidm]
      exact hlen
    · simp only [Log.join, if_neg hidm]
      rcases h1 : (jsVals (Log.difference other stJ)).find?
        (fun e => !envJ.canAppend e) with _ | x
      · rcases h2 : (jsVals (Log.difference other stJ)).find?
          (fun e => !envJ.verify e) with _ | y
        · show lengthOk (Log.joinClock (if size > -1 then
            Log.joinTrunc (Log.joinMid stJ other) size else Log.joinMid stJ other))
          by_cases hsize : size > -1
          · rw [if_pos hsize]
            exact lengthOk_joinTrunc (Log.joinMid stJ other) size
          · rw [if_neg hsize]
            exact lengthOk_joinMid stJ other hlen hnd htagO
        · exact hlen
      · exact hlen

/-- Witness for the amended C9: construction from [exE1], the append to
the empty log, and a join of exLogB into the empty log all leave length
equal to the number of keys. -/
theorem length_matches_entry_index_witness :
    lengthOk (Log.mkLog "A" "X" [exE1] none none) ∧
    lengthOk exAppSt ∧
    lengthOk (Log.join envAllT exLogEmpty exLogB (-1)).1 := by
  obtain ⟨h1, h2, h3⟩ := length_matches_entry_index "A" "X" [exE1] none none
    envOkApp exLogEmpty "p" 1 exAppSt exAppEntry envAllT exLogEmpty exLogB (-1)
  exact ⟨h1 (by decide), h2 (by decide) (by decide) rfl (by decide),
    h3 (by decide) (by decide) (by decide)⟩

/-! ### Claim C4: bounded join truncation -/

theorem jsSet_length_le {α : Type} (m : JsMap α) (k : String) (v : α) :
    (jsSet m k v).length ≤ m.length + 1 := by
  rw [jsSet]
  split
  · rw [List.length_map]
    exact Nat.le_succ _
  · rw [List.length_append]
    exact le_refl _

theorem foldl_jsSet_length_le (l : List Entry) :
    ∀ m : JsMap Entry,
      (l.foldl (fun m e => jsSet m e.hash e) m).length ≤ m.length + l.length := by
  induction l with
  | nil => intro m; simp
  | cons e rest ih =>
    intro m
    rw [List.foldl_cons]
    refine le_trans (ih (jsSet m e.hash e)) ?_
    have := jsSet_length_le m e.hash e
    rw [List.length_cons]
    omega

theorem entriesToMap_length_le (l : List Entry) :
    (entriesToMap l).length ≤ l.length := by
  have := foldl_jsSet_length_le l []
  simpa [entriesToMap] using this

theorem jsSliceNeg_length_le (l : List Entry) (size : Int) (hsize : 1 ≤ size) :
    (Log.jsSliceNeg l size).length ≤ size.toNat := by
  rw [Log.jsSliceNeg, if_neg (by omega)]
  rw [List.length_drop]
  omega

/-- C4 (counterexample): the claim says that after join(other, maxSize)
with maxSize ≥ 0 the entryIndex holds exactly the last maxSize entries of
the merged values (so length ≤ maxSize); but tmp.slice(-0) is
tmp.slice(0), the whole array, so a join with maxSize 0 keeps both
entries of exLogB instead of none. -/
theorem join_maxsize_zero_keeps_entries_ce :
    (Log.join envAllT exLogEmpty exLogB 0).1.length = 2 ∧
    jsKeys (Log.join envAllT exLogEmpty exLogB 0).1.entryIndex = ["hx", "hy"] := by
  exact ⟨rfl, rfl⟩

/-- C4 (amended): for join(other, maxSize) with maxSize ≥ 1 on logs with
equal ids that passes both gates, the entryIndex becomes the map of the
last maxSize entries of the merged values sequence (the values of the
untruncated join), headsIndex becomes findHeads of those retained
entries, length is the number of distinct retained keys, and in
particular length ≤ maxSize.  For maxSize = 0 the slice is a no-op (see
the counterexample). -/
theorem join_truncates_to_last_maxsize (env : JoinEnv) (st other : LogState)
    (size : Int) (hid : st.id = other.id)
    (hgates : ∀ e ∈ jsVals (Log.difference other st),
      env.canAppend e = true ∧ env.verify e = true)
    (hsize : 1 ≤ size) :
    (Log.join env st other size).1.entryIndex =
      entriesToMap (Log.jsSliceNeg (Log.values (Log.join env st other (-1)).1) size) ∧
    (Log.join env st other size).1.headsIndex =
      entriesToMap (Log.findHeads
        (Log.jsSliceNeg (Log.values (Log.join env st other (-1)).1) size)) ∧
    (Log.join env st other size).1.length =
      (jsKeys (Log.join env st other size).1.entryIndex).dedup.length ∧
    (Log.join env st other size).1.length ≤ size.toNat := by
  rw [join_ok_spec env st other size hid hgates,
    join_ok_spec env st other (-1) hid hgates]
  rw [if_pos (by omega : size > -1), if_neg (by omega : ¬(-1 : Int) > -1)]
  refine ⟨rfl, rfl, lengthOk_joinTrunc (Log.joinMid st other) size, ?_⟩
  show (jsVals (entriesToMap (Log.jsSliceNeg (Log.values (Log.joinMid st other))
    size))).length ≤ size.toNat
  rw [jsVals_length]
  exact le_trans (entriesToMap_length_le _) (jsSliceNeg_length_le _ size hsize)

/-- Witness for the amended C4: joining exLogB into the empty log with
maxSize 1 keeps only the last merged value. -/
theorem join_truncates_to_last_maxsize_witness :
    (Log.join envAllT exLogEmpty exLogB 1).1.entryIndex =
      entriesToMap (Log.jsSliceNeg
        (Log.values (Log.join envAllT exLogEmpty exLogB (-1)).1) 1) ∧
    (Log.join envAllT exLogEmpty exLogB 1).1.headsIndex =
      entriesToMap (Log.findHeads (Log.jsSliceNeg
        (Log.values (Log.join envAllT exLogEmpty exLogB (-1)).1) 1)) ∧
    (Log.join envAllT exLogEmpty exLogB 1).1.length =
      (jsKeys (Log.join envAllT exLogEmpty exLogB 1).1.entryIndex).dedup.length ∧
    (Log.join envAllT exLogEmpty exLogB 1).1.length ≤ (1 : Int).toNat :=
  join_truncates_to_last_maxsize envAllT exLogEmpty exLogB 1 rfl
    (by decide) (by decide)

/-! ### Helpers towards join commutativity -/

theorem unionGet_some {t o : LogState} {k : String} {v : Entry}
    (h : jsGet t.entryIndex k = some v) : unionGet t o k = some v := by
  rw [unionGet, h]

theorem unionGet_none {t o : LogState} {k : String}
    (h : jsGet t.entryIndex k = none) : unionGet t o k = jsGet o.entryIndex k := by
  rw [unionGet, h]

theorem mem_jsVals_jsAssign {α : Type} {m n : JsMap α} {v : α}
    (h : v ∈ jsVals (jsAssign m n)) : v ∈ jsVals m ∨ v ∈ jsVals n := by
  induction n generalizing m with
  | nil => exact Or.inl h
  | cons p rest ih =>
    rw [jsAssign_cons] at h
    rcases ih h with h1 | h1
    · rcases mem_jsVals_jsSet h1 with h2 | h2
      · exact Or.inl h2
      · refine Or.inr ?_
        rw [h2]
        show p.2 ∈ List.map Prod.snd (p :: rest)
        simp
    · refine Or.inr ?_
      show v ∈ List.map Prod.snd (p :: rest)
      rw [List.map_cons]
      exact List.mem_cons_of_mem p.2 h1

theorem foldl_append_mem (l : List Entry) :
    ∀ (acc : List String) (q : String),
      q ∈ l.foldl (fun acc e => acc ++ e.next) acc ↔
        q ∈ acc ∨ ∃ e ∈ l, q ∈ e.next := by
  induction l with
  | nil => simp
  | cons e rest ih =>
    intro acc q
    rw [List.foldl_cons, ih]
    rw [List.mem_append]
    simp only [List.mem_cons]
    constructor
    · rintro ((h1 | h1) | ⟨f, hf, hq⟩)
      · exact Or.inl h1
      · exact Or.inr ⟨e, Or.inl rfl, h1⟩
      · exact Or.inr ⟨f, Or.inr hf, hq⟩
    · rintro (h1 | ⟨f, hf | hf, hq⟩)
      · exact Or.inl (Or.inl h1)
      · exact Or.inl (Or.inr (by rw [← hf]; exact hq))
      · exact Or.inr ⟨f, hf, hq⟩

theorem difference_vals_sub (o t : LogState)
    (htagO : ∀ p ∈ o.entryIndex, (p.2 : Entry).hash = p.1) :
    ∀ e ∈ jsVals (Log.difference o t), e ∈ jsVals o.entryIndex := by
  obtain ⟨_, hN2, _, _⟩ := difference_spec o t htagO
  intro e he
  rcases (mem_jsVals_iff _ e).1 he with ⟨k, hk⟩
  exact mem_jsVals_of_jsGet (hN2 (k, e) hk).1

theorem WF_joinClock (x : LogState) (h : WF x) : WF (Log.joinClock x) :=
  ⟨h.nodupE, h.nodupH, h.tagged, h.closed, h.headsSub, h.headsHead,
    h.headsFull, h.nextsSound, h.nextsFull⟩

theorem joinClock_entryIndex (x : LogState) :
    (Log.joinClock x).entryIndex = x.entryIndex := rfl

theorem joinClock_headsIndex (x : LogState) :
    (Log.joinClock x).headsIndex = x.headsIndex := rfl

theorem joinClock_id (x : LogState) : (Log.joinClock x).id = x.id := rfl

theorem mapEquiv_vals_mem {m1 m2 : JsMap Entry} (hnd : (jsKeys m1).Nodup)
    (heq : MapEquiv m1 m2) {e : Entry} (he : e ∈ jsVals m1) : e ∈ jsVals m2 := by
  rcases (mem_jsVals_iff _ e).1 he with ⟨k, hk⟩
  have h1 : jsGet m1 k = some e := jsGet_of_mem_nodup hk hnd
  have h2 : jsGet m2 k = some e := by rw [← heq k]; exact h1
  exact mem_jsVals_of_jsGet h2

theorem referenced_equiv_of_mapEquiv {s1 s2 : LogState}
    (hnd1 : (jsKeys s1.entryIndex).Nodup) (hnd2 : (jsKeys s2.entryIndex).Nodup)
    (heq : MapEquiv s1.entryIndex s2.entryIndex) (q : String) :
    Referenced s1 q ↔ Referenced s2 q := by
  constructor
  · rintro ⟨e, he, hq⟩
    exact ⟨e, mapEquiv_vals_mem hnd1 heq he, hq⟩
  · rintro ⟨e, he, hq⟩
    exact ⟨e, mapEquiv_vals_mem hnd2 (fun k => (heq k).symm) he, hq⟩

theorem heads_equiv_of_WF {s1 s2 : LogState} (h1 : WF s1) (h2 : WF s2)
    (hent : MapEquiv s1.entryIndex s2.entryIndex) :
    MapEquiv s1.headsIndex s2.headsIndex := by
  intro k
  by_cases hk : k ∈ jsKeys s1.headsIndex
  · obtain ⟨e, he⟩ := jsGet_isSome_of_mem_keys hk
    have hsub := h1.headsSub (k, e) (jsGet_mem he)
    have hmem := h1.headsHead k hk
    have hent2 : jsGet s2.entryIndex k = some e := by
      rw [← hent k]
      exact hsub
    have href2 : ¬Referenced s2 k := by
      rw [← referenced_equiv_of_mapEquiv h1.nodupE h2.nodupE hent k]
      exact hmem.2
    have hk2 : k ∈ jsKeys s2.headsIndex :=
      h2.headsFull (k, e) (jsGet_mem hent2) href2
    obtain ⟨f, hf⟩ := jsGet_isSome_of_mem_keys hk2
    have hsub2 := h2.headsSub (k, f) (jsGet_mem hf)
    have hfe : f = e := by
      rw [hsub2] at hent2
      injection hent2
    rw [he, hf, hfe]
  · have hk2 : k ∉ jsKeys s2.headsIndex := by
      intro hmem2
      have h3 := h2.headsHead k hmem2
      have href1 : ¬Referenced s1 k := by
        rw [referenced_equiv_of_mapEquiv h1.nodupE h2.nodupE hent k]
        exact h3.2
      obtain ⟨e, he⟩ := jsGet_isSome_of_mem_keys h3.1
      have hent1 : jsGet s1.entryIndex k = some e := by
        rw [hent k]
        exact he
      exact hk (h1.headsFull (k, e) (jsGet_mem hent1) href1)
    rw [(jsGet_eq_none_iff _ _).2 hk, (jsGet_eq_none_iff _ _).2 hk2]

theorem joinMid_covered {t o : LogState} {pool : List Entry} {rk : String → Nat}
    (h : JoinHyp t o pool rk) :
    ∀ k ∈ jsKeys o.entryIndex,
      k ∈ jsKeys t.entryIndex ∨ k ∈ jsKeys (Log.difference o t) :=
  difference_complete o t rk h.ido h.wfO.tagged h.wfO.nodupE
    (fun p hp => (h.wfT.tagged p hp).1) h.wfT.closed
    (fun e he f hf heq => h.compat e (h.poolO e he) f (h.poolT f hf) heq)
    (fun e he => h.rankOk e (h.poolO e he))
    h.wfO.headsFull

theorem joinMid_get_eq {t o : LogState} {pool : List Entry} {rk : String → Nat}
    (h : JoinHyp t o pool rk) (k : String) :
    jsGet (Log.joinMid t o).entryIndex k = unionGet t o k := by
  obtain ⟨hN1, hN2, _, _⟩ :=
    difference_spec o t (fun p hp => (h.wfO.tagged p hp).1)
  rw [joinMid_entryIndex]
  by_cases hk : k ∈ jsKeys (Log.difference o t)
  · obtain ⟨v, hv⟩ := jsGet_isSome_of_mem_keys hk
    rw [jsGet_jsAssign_of_mem (jsGet_mem hv) hN1]
    have hs := hN2 (k, v) (jsGet_mem hv)
    have htn : jsGet t.entryIndex k = none := hs.2.1
    rw [unionGet_none htn]
    exact hs.1.symm
  · rw [jsGet_jsAssign_of_not_mem hk]
    rcases ht : jsGet t.entryIndex k with _ | v
    · rw [unionGet_none ht]
      rcases ho : jsGet o.entryIndex k with _ | w
      · rfl
      · rcases joinMid_covered h k (mem_jsKeys_of_jsGet ho) with h1 | h1
        · exact absurd ((jsGet_eq_none_iff _ _).1 ht) (by simp [h1])
        · exact absurd h1 hk
    · rw [unionGet_some ht]

theorem joinMid_mem_keys {t o : LogState} {pool : List Entry} {rk : String → Nat}
    (h : JoinHyp t o pool rk) (k : String) :
    k ∈ jsKeys (Log.joinMid t o).entryIndex ↔
      k ∈ jsKeys t.entryIndex ∨ k ∈ jsKeys o.entryIndex := by
  obtain ⟨hN1, hN2, _, _⟩ :=
    difference_spec o t (fun p hp => (h.wfO.tagged p hp).1)
  rw [joinMid_entryIndex, mem_jsKeys_jsAssign]
  constructor
  · rintro (h1 | h1)
    · exact Or.inl h1
    · obtain ⟨v, hv⟩ := jsGet_isSome_of_mem_keys h1
      exact Or.inr (mem_jsKeys_of_jsGet (hN2 (k, v) (jsGet_mem hv)).1)
  · rintro (h1 | h1)
    · exact Or.inl h1
    · exact joinMid_covered h k h1

theorem joinMid_mem_vals {t o : LogState} {pool : List Entry} {rk : String → Nat}
    (h : JoinHyp t o pool rk) (e : Entry) :
    e ∈ jsVals (Log.joinMid t o).entryIndex ↔
      e ∈ jsVals t.entryIndex ∨ e ∈ jsVals (Log.difference o t) := by
  obtain ⟨hN1, _, _, _⟩ :=
    difference_spec o t (fun p hp => (h.wfO.tagged p hp).1)
  rw [joinMid_entryIndex]
  rw [jsAssign_of_disjoint
    (difference_keys_disjoint o t (fun p hp => (h.wfO.tagged p hp).1)) hN1]
  rw [jsVals_append, List.mem_append]

theorem o_vals_in_mid {t o : LogState} {pool : List Entry} {rk : String → Nat}
    (h : JoinHyp t o pool rk) :
    ∀ e ∈ jsVals o.entryIndex, e ∈ jsVals (Log.joinMid t o).entryIndex := by
  intro e he
  rcases (mem_jsVals_iff _ e).1 he with ⟨k, hk⟩
  have htag := h.wfO.tagged (k, e) hk
  have hgeto : jsGet o.entryIndex k = some e := jsGet_of_mem_nodup hk h.wfO.nodupE
  have hkk : k ∈ jsKeys o.entryIndex := List.mem_map_of_mem Prod.fst hk
  have hget : jsGet (Log.joinMid t o).entryIndex k = unionGet t o k :=
    joinMid_get_eq h k
  rcases ht : jsGet t.entryIndex k with _ | v
  · rw [unionGet_none ht, hgeto] at hget
    exact mem_jsVals_of_jsGet hget
  · have hvtag := (h.wfT.tagged (k, v) (jsGet_mem ht)).1
    have hve : v = e := h.compat v (h.poolT v (mem_jsVals_of_jsGet ht)) e
      (h.poolO e he) (by rw [hvtag, htag.1])
    rw [unionGet_some ht, hve] at hget
    exact mem_jsVals_of_jsGet hget

theorem joinMid_ref_iff {t o : LogState} {pool : List Entry} {rk : String → Nat}
    (h : JoinHyp t o pool rk) (q : String) :
    Referenced (Log.joinMid t o) q ↔ Referenced t q ∨ Referenced o q := by
  constructor
  · rintro ⟨e, he, hq⟩
    rcases (joinMid_mem_vals h e).1 he with h1 | h1
    · exact Or.inl ⟨e, h1, hq⟩
    · exact Or.inr ⟨e, difference_vals_sub o t
        (fun p hp => (h.wfO.tagged p hp).1) e h1, hq⟩
  · rintro (⟨e, he, hq⟩ | ⟨e, he, hq⟩)
    · exact ⟨e, (joinMid_mem_vals h e).2 (Or.inl he), hq⟩
    · exact ⟨e, o_vals_in_mid h e he, hq⟩

theorem joinMid_nexts_iff {t o : LogState} {pool : List Entry} {rk : String → Nat}
    (h : JoinHyp t o pool rk) (q : String) :
    q ∈ jsKeys (Log.joinMid t o).nextsIndex ↔ Referenced (Log.joinMid t o) q := by
  rw [joinMid_nextsIndex, joinFold_snd_keys]
  rw [joinMid_ref_iff h q]
  constructor
  · rintro (h1 | ⟨e, he, hq⟩)
    · exact Or.inl (h.wfT.nextsSound q h1)
    · exact Or.inr ⟨e, difference_vals_sub o t
        (fun p hp => (h.wfO.tagged p hp).1) e he, hq⟩
  · rintro (⟨e, he, hq⟩ | ⟨e, he, hq⟩)
    · exact Or.inl (h.wfT.nextsFull e he q hq)
    · -- a reference inside o is a reference inside t or inside the difference
      rcases (mem_jsVals_iff _ e).1 he with ⟨k, hk⟩
      have htag := h.wfO.tagged (k, e) hk
      have hgeto : jsGet o.entryIndex k = some e :=
        jsGet_of_mem_nodup hk h.wfO.nodupE
      rcases joinMid_covered h k (List.mem_map_of_mem Prod.fst hk) with h1 | h1
      · obtain ⟨v, hv⟩ := jsGet_isSome_of_mem_keys h1
        have hvtag := (h.wfT.tagged (k, v) (jsGet_mem hv)).1
        have hve : v = e := h.compat v (h.poolT v (mem_jsVals_of_jsGet hv)) e
          (h.poolO e he) (by rw [hvtag, htag.1])
        refine Or.inl (h.wfT.nextsFull v (mem_jsVals_of_jsGet hv) q ?_)
        rw [hve]
        exact hq
      · obtain ⟨v, hv⟩ := jsGet_isSome_of_mem_keys h1
        obtain ⟨_, hN2, _, _⟩ :=
          difference_spec o t (fun p hp => (h.wfO.tagged p hp).1)
        have hs := hN2 (k, v) (jsGet_mem hv)
        have hve : v = e := by
          have h3 := hs.1
          rw [hgeto] at h3
          injection h3 with h4
          exact h4.symm
        refine Or.inr ⟨v, mem_jsVals_of_jsGet hv, ?_⟩
        rw [hve]
        exact hq

theorem contains_false_iff (l : List String) (a : String) :
    l.contains a = false ↔ a ∉ l := by
  rw [← Bool.not_eq_true, List.contains_iff_exists_mem_beq]
  simp

theorem candidates_src {t o : LogState} {pool : List Entry} {rk : String → Nat}
    (h : JoinHyp t o pool rk) :
    ∀ e ∈ jsVals (jsAssign t.headsIndex o.headsIndex),
      (jsGet t.entryIndex e.hash = some e ∨ jsGet o.entryIndex e.hash = some e) ∧
        e ∈ pool := by
  intro e he
  rcases mem_jsVals_jsAssign he with h1 | h1
  · rcases (mem_jsVals_iff _ e).1 h1 with ⟨k, hk⟩
    have hsub := h.wfT.headsSub (k, e) hk
    have htg : e.hash = k := (h.wfT.tagged (k, e) (jsGet_mem hsub)).1
    refine ⟨Or.inl (by rw [htg]; exact hsub), h.poolT e (mem_jsVals_of_jsGet hsub)⟩
  · rcases (mem_jsVals_iff _ e).1 h1 with ⟨k, hk⟩
    have hsub := h.wfO.headsSub (k, e) hk
    have htg : e.hash = k := (h.wfO.tagged (k, e) (jsGet_mem hsub)).1
    refine ⟨Or.inr (by rw [htg]; exact hsub), h.poolO e (mem_jsVals_of_jsGet hsub)⟩

theorem cand_of_headT {t o : LogState} {pool : List Entry} {rk : String → Nat}
    (h : JoinHyp t o pool rk) {k : String} (hk : k ∈ jsKeys t.headsIndex) :
    ∃ e, jsGet (jsAssign t.headsIndex o.headsIndex) k = some e ∧ e.hash = k := by
  by_cases hko : k ∈ jsKeys o.headsIndex
  · obtain ⟨v, hv⟩ := jsGet_isSome_of_mem_keys hko
    refine ⟨v, ?_, ?_⟩
    · exact jsGet_jsAssign_of_mem (jsGet_mem hv) h.wfO.nodupH
    · have hsub := h.wfO.headsSub (k, v) (jsGet_mem hv)
      exact (h.wfO.tagged (k, v) (jsGet_mem hsub)).1
  · obtain ⟨v, hv⟩ := jsGet_isSome_of_mem_keys hk
    refine ⟨v, ?_, ?_⟩
    · rw [jsGet_jsAssign_of_not_mem hko]
      exact hv
    · have hsub := h.wfT.headsSub (k, v) (jsGet_mem hv)
      exact (h.wfT.tagged (k, v) (jsGet_mem hsub)).1

theorem cand_of_headO {t o : LogState} {pool : List Entry} {rk : String → Nat}
    (h : JoinHyp t o pool rk) {k : String} (hk : k ∈ jsKeys o.headsIndex) :
    ∃ e, jsGet (jsAssign t.headsIndex o.headsIndex) k = some e ∧ e.hash = k := by
  obtain ⟨v, hv⟩ := jsGet_isSome_of_mem_keys hk
  refine ⟨v, ?_, ?_⟩
  · exact jsGet_jsAssign_of_mem (jsGet_mem hv) h.wfO.nodupH
  · have hsub := h.wfO.headsSub (k, v) (jsGet_mem hv)
    exact (h.wfO.tagged (k, v) (jsGet_mem hsub)).1

theorem cand_ref_mid {t o : LogState} {pool : List Entry} {rk : String → Nat}
    (h : JoinHyp t o pool rk) {f : Entry}
    (hf : f ∈ jsVals (jsAssign t.headsIndex o.headsIndex)) {q : String}
    (hq : q ∈ f.next) : Referenced (Log.joinMid t o) q := by
  rcases (candidates_src h f hf).1 with h1 | h1
  · exact (joinMid_ref_iff h q).2 (Or.inl ⟨f, mem_jsVals_of_jsGet h1, hq⟩)
  · exact (joinMid_ref_iff h q).2 (Or.inr ⟨f, mem_jsVals_of_jsGet h1, hq⟩)

theorem joinMid_headsIndex_eq {t o : LogState} {pool : List Entry}
    {rk : String → Nat} (h : JoinHyp t o pool rk) :
    (Log.joinMid t o).headsIndex =
      entriesToMap
        (((Log.findHeads (jsVals (jsAssign t.headsIndex o.headsIndex))).filter
          (fun e => !(((jsVals (Log.difference o t)).foldl
            (fun acc e => acc ++ e.next) []).contains e.hash))).filter
          (fun e => decide (jsGet (Log.joinMid t o).nextsIndex e.hash = none))) := by
  rw [joinMid_headsIndex, jsAssign_nil_left h.wfT.nodupH, ← joinMid_nextsIndex]

theorem joinMid_heads_mem {t o : LogState} {pool : List Entry} {rk : String → Nat}
    (h : JoinHyp t o pool rk) (k : String) :
    k ∈ jsKeys (Log.joinMid t o).headsIndex ↔
      k ∈ jsKeys (Log.joinMid t o).entryIndex ∧
        ¬Referenced (Log.joinMid t o) k := by
  rw [joinMid_headsIndex_eq h, mem_jsKeys_entriesToMap]
  constructor
  · rintro ⟨e, he, hhash⟩
    rcases List.mem_filter.1 he with ⟨he2, hp2⟩
    rcases List.mem_filter.1 he2 with ⟨he3, _⟩
    have hcand := (mem_findHeads _ e).1 he3
    have hmemk : k ∈ jsKeys (Log.joinMid t o).entryIndex := by
      rcases (candidates_src h e hcand.1).1 with h1 | h1
      · refine (joinMid_mem_keys h k).2 (Or.inl ?_)
        rw [← hhash]
        exact mem_jsKeys_of_jsGet h1
      · refine (joinMid_mem_keys h k).2 (Or.inr ?_)
        rw [← hhash]
        exact mem_jsKeys_of_jsGet h1
    refine ⟨hmemk, ?_⟩
    simp only [decide_eq_true_eq] at hp2
    rw [← hhash]
    intro href
    exact absurd hp2 (by
      rw [jsGet_eq_none_iff]
      simp only [not_not]
      exact (joinMid_nexts_iff h e.hash).2 href)
  · rintro ⟨hmemk, href⟩
    have hcases := (joinMid_mem_keys h k).1 hmemk
    have hgetcand : ∃ e, jsGet (jsAssign t.headsIndex o.headsIndex) k = some e ∧
        e.hash = k := by
      rcases hcases with h1 | h1
      · obtain ⟨v, hv⟩ := jsGet_isSome_of_mem_keys h1
        have hnt : ¬Referenced t k :=
          fun hr => href ((joinMid_ref_iff h k).2 (Or.inl hr))
        exact cand_of_headT h (h.wfT.headsFull (k, v) (jsGet_mem hv) hnt)
      · obtain ⟨v, hv⟩ := jsGet_isSome_of_mem_keys h1
        have hno : ¬Referenced o k :=
          fun hr => href ((joinMid_ref_iff h k).2 (Or.inr hr))
        exact cand_of_headO h (h.wfO.headsFull (k, v) (jsGet_mem hv) hno)
    obtain ⟨e, hHU, hhash⟩ := hgetcand
    refine ⟨e, ?_, hhash⟩
    refine List.mem_filter.2 ⟨List.mem_filter.2 ⟨?_, ?_⟩, ?_⟩
    · refine (mem_findHeads _ e).2 ⟨mem_jsVals_of_jsGet hHU, ?_⟩
      intro f hf hn
      refine href ?_
      rw [← hhash]
      exact cand_ref_mid h hf hn
    · show (!(((jsVals (Log.difference o t)).foldl
          (fun acc e => acc ++ e.next) []).contains e.hash)) = true
      rw [Bool.not_eq_true', contains_false_iff, foldl_append_mem]
      rintro (h2 | ⟨g, hg, hgq⟩)
      · simp at h2
      · have hrefo : Referenced o e.hash :=
          ⟨g, difference_vals_sub o t (fun p hp => (h.wfO.tagged p hp).1) g hg, hgq⟩
        have hrm : Referenced (Log.joinMid t o) e.hash :=
          (joinMid_ref_iff h e.hash).2 (Or.inr hrefo)
        rw [hhash] at hrm
        exact href hrm
    · rw [decide_eq_true_eq, jsGet_eq_none_iff]
      intro hmem
      rw [hhash] at hmem
      exact href ((joinMid_nexts_iff h k).1 hmem)

theorem joinMid_entry_append {t o : LogState} {pool : List Entry}
    {rk : String → Nat} (h : JoinHyp t o pool rk) :
    (Log.joinMid t o).entryIndex = t.entryIndex ++ Log.difference o t := by
  obtain ⟨hN1, hN2, _, _⟩ :=
    difference_spec o t (fun p hp => (h.wfO.tagged p hp).1)
  rw [joinMid_entryIndex]
  refine jsAssign_of_disjoint ?_ hN1
  intro a ha hm
  obtain ⟨v, hv⟩ := jsGet_isSome_of_mem_keys ha
  have hnone := (hN2 (a, v) (jsGet_mem hv)).2.1
  rw [jsGet_eq_none_iff] at hnone
  exact hnone hm

theorem joinMid_nodupE {t o : LogState} {pool : List Entry} {rk : String → Nat}
    (h : JoinHyp t o pool rk) : (jsKeys (Log.joinMid t o).entryIndex).Nodup := by
  obtain ⟨hN1, hN2, _, _⟩ :=
    difference_spec o t (fun p hp => (h.wfO.tagged p hp).1)
  rw [joinMid_entry_append h, jsKeys_append]
  refine List.Nodup.append h.wfT.nodupE hN1 ?_
  intro a hat han
  obtain ⟨v, hv⟩ := jsGet_isSome_of_mem_keys han
  have hnone := (hN2 (a, v) (jsGet_mem hv)).2.1
  rw [jsGet_eq_none_iff] at hnone
  exact hnone hat

theorem joinMid_tagged {t o : LogState} {pool : List Entry} {rk : String → Nat}
    (h : JoinHyp t o pool rk) :
    ∀ p ∈ (Log.joinMid t o).entryIndex,
      (p.2 : Entry).hash = p.1 ∧ (p.2 : Entry).id = (Log.joinMid t o).id := by
  intro p hp
  rw [joinMid_entry_append h] at hp
  rcases List.mem_append.1 hp with h1 | h1
  · exact ⟨(h.wfT.tagged p h1).1, by rw [joinMid_id]; exact (h.wfT.tagged p h1).2⟩
  · obtain ⟨_, hN2, _, _⟩ :=
      difference_spec o t (fun p hp => (h.wfO.tagged p hp).1)
    have hs := hN2 p h1
    exact ⟨hs.2.2.2, by rw [joinMid_id]; exact hs.2.2.1⟩

theorem joinMid_closed {t o : LogState} {pool : List Entry} {rk : String → Nat}
    (h : JoinHyp t o pool rk) :
    ∀ e ∈ jsVals (Log.joinMid t o).entryIndex, ∀ q ∈ e.next,
      q ∈ jsKeys (Log.joinMid t o).entryIndex := by
  intro e he q hq
  rw [joinMid_entry_append h] at he
  simp only [jsVals, List.map_append, List.mem_append] at he
  rcases he with h1 | h1
  · exact (joinMid_mem_keys h q).2 (Or.inl (h.wfT.closed e h1 q hq))
  · have h2 : e ∈ jsVals o.entryIndex :=
      difference_vals_sub o t (fun p hp => (h.wfO.tagged p hp).1) e h1
    exact (joinMid_mem_keys h q).2 (Or.inr (h.wfO.closed e h2 q hq))

theorem joinMid_heads_sub {t o : LogState} {pool : List Entry} {rk : String → Nat}
    (h : JoinHyp t o pool rk) :
    ∀ p ∈ (Log.joinMid t o).headsIndex,
      jsGet (Log.joinMid t o).entryIndex p.1 = some p.2 := by
  rintro ⟨k, v⟩ hp
  have hnd : (jsKeys (Log.joinMid t o).headsIndex).Nodup := by
    rw [joinMid_headsIndex]; exact nodup_jsKeys_entriesToMap _
  have hget : jsGet (Log.joinMid t o).headsIndex k = some v :=
    jsGet_of_mem_nodup hp hnd
  rw [joinMid_headsIndex_eq h] at hget
  obtain ⟨hvl, hvh⟩ := jsGet_entriesToMap_mem _ hget
  rcases List.mem_filter.1 hvl with ⟨hvl2, _⟩
  rcases List.mem_filter.1 hvl2 with ⟨hvl3, _⟩
  have hcand := ((mem_findHeads _ v).1 hvl3).1
  have hsrc := candidates_src h v hcand
  rw [joinMid_get_eq h k]
  rcases hsrc.1 with h1 | h1
  · rw [hvh] at h1
    exact unionGet_some h1
  · rcases ht : jsGet t.entryIndex k with _ | w
    · rw [unionGet_none ht, ← hvh]
      exact h1
    · have hw : w ∈ pool := h.poolT w (mem_jsVals_of_jsGet ht)
      have hwh : w.hash = k := (h.wfT.tagged (k, w) (jsGet_mem ht)).1
      have hvw : w = v := h.compat w hw v hsrc.2 (by rw [hwh, hvh])
      rw [unionGet_some ht, hvw]

theorem WF_joinMid {t o : LogState} {pool : List Entry} {rk : String → Nat}
    (h : JoinHyp t o pool rk) : WF (Log.joinMid t o) where
  nodupE := joinMid_nodupE h
  nodupH := by rw [joinMid_headsIndex]; exact nodup_jsKeys_entriesToMap _
  tagged := joinMid_tagged h
  closed := joinMid_closed h
  headsSub := joinMid_heads_sub h
  headsHead := fun k hk => (joinMid_heads_mem h k).1 hk
  headsFull := fun p hp hnr =>
    (joinMid_heads_mem h p.1).2 ⟨List.mem_map_of_mem Prod.fst hp, hnr⟩
  nextsSound := fun q hq => (joinMid_nexts_iff h q).1 hq
  nextsFull := fun e he q hq => (joinMid_nexts_iff h q).2 ⟨e, he, hq⟩

theorem joinMid_pool {t o : LogState} {pool : List Entry} {rk : String → Nat}
    (h : JoinHyp t o pool rk) :
    ∀ e ∈ jsVals (Log.joinMid t o).entryIndex, e ∈ pool := by
  intro e he
  rw [joinMid_entry_append h] at he
  simp only [jsVals, List.map_append, List.mem_append] at he
  rcases he with h1 | h1
  · exact h.poolT e h1
  · exact h.poolO e
      (difference_vals_sub o t (fun p hp => (h.wfO.tagged p hp).1) e h1)

theorem joinNeg_eq {t o : LogState} {pool : List Entry} {rk : String → Nat}
    (h : JoinHyp t o pool rk) (env : JoinEnv)
    (henv : ∀ e ∈ pool, env.canAppend e = true ∧ env.verify e = true) :
    Log.join env t o (-1) = (Log.joinClock (Log.joinMid t o), Except.ok ()) := by
  have hgates : ∀ e ∈ jsVals (Log.difference o t),
      env.canAppend e = true ∧ env.verify e = true := by
    intro e he
    exact henv e (h.poolO e
      (difference_vals_sub o t (fun p hp => (h.wfO.tagged p hp).1) e he))
  rw [join_ok_spec env t o (-1) h.ido.symm hgates]
  rw [if_neg (by omega : ¬((-1 : Int) > -1))]

theorem joinHyp_step {t o b : LogState} {pool : List Entry} {rk : String → Nat}
    (h : JoinHyp t o pool rk) (hWb : WF b) (hidb : b.id = t.id)
    (hpb : ∀ e ∈ jsVals b.entryIndex, e ∈ pool) :
    JoinHyp (Log.joinClock (Log.joinMid t o)) b pool rk where
  wfT := WF_joinClock _ (WF_joinMid h)
  wfO := hWb
  ido := by rw [joinClock_id, joinMid_id]; exact hidb
  poolT := fun e he => joinMid_pool h e he
  poolO := hpb
  compat := h.compat
  rankOk := h.rankOk

theorem joinTri_get {t o b : LogState} {pool : List Entry} {rk : String → Nat}
    (h1 : JoinHyp t o pool rk) (hWb : WF b) (hidb : b.id = t.id)
    (hpb : ∀ e ∈ jsVals b.entryIndex, e ∈ pool) (k : String) :
    jsGet (Log.joinMid (Log.joinClock (Log.joinMid t o)) b).entryIndex k =
      match jsGet t.entryIndex k with
      | some v => some v
      | none =>
        match jsGet o.entryIndex k with
        | some v => some v
        | none => jsGet b.entryIndex k := by
  rw [joinMid_get_eq (joinHyp_step h1 hWb hidb hpb) k]
  have hx : jsGet (Log.joinClock (Log.joinMid t o)).entryIndex k =
      unionGet t o k := joinMid_get_eq h1 k
  rcases ht : jsGet t.entryIndex k with _ | v
  · rcases ho : jsGet o.entryIndex k with _ | w
    · simp [unionGet, hx, ht, ho]
    · simp [unionGet, hx, ht, ho]
  · simp [unionGet, hx, ht]

/-- C6 (counterexample): the claim says join is commutative for logs that
share an id and hold only permitted, correctly signed entries; but a log
whose next pointers dangle (a partial replica) breaks it: joining exLogA
(which references hx without holding it) before exLogB never integrates
exX, because the difference walk from exLogA's heads stops at the already
known hy, while the reverse order holds hx. -/
theorem join_not_commutative_ce :
    jsGet (Log.join envAllT (Log.join envAllT exLogEmpty exLogA (-1)).1
        exLogB (-1)).1.entryIndex "hx" ≠
      jsGet (Log.join envAllT (Log.join envAllT exLogEmpty exLogB (-1)).1
        exLogA (-1)).1.entryIndex "hx" := by
  decide

/-- C6 (amended): join is commutative and idempotent on entryIndex and
headsIndex for well-formed logs: logs sharing an id whose entries are
keyed by their own hash, tagged with the log id, closed under next
pointers (no dangling references), with exact heads and nexts indices,
drawn from a common content-addressed pool (equal hashes mean equal
entries) whose next graph is acyclic, under an environment that permits
and verifies every pool entry.  Then L.join(A).join(B) and
L.join(B).join(A) have equivalent entryIndex and headsIndex, and
L.join(A).join(A) is equivalent to L.join(A). -/
theorem join_commutative_idempotent
    (env : JoinEnv) (L A B : LogState) (pool : List Entry) (rk : String → Nat)
    (hWL : WF L) (hWA : WF A) (hWB : WF B)
    (hidA : A.id = L.id) (hidB : B.id = L.id)
    (hpL : ∀ e ∈ jsVals L.entryIndex, e ∈ pool)
    (hpA : ∀ e ∈ jsVals A.entryIndex, e ∈ pool)
    (hpB : ∀ e ∈ jsVals B.entryIndex, e ∈ pool)
    (hcompat : CompatPool pool) (hrk : RankOk rk pool)
    (henv : ∀ e ∈ pool, env.canAppend e = true ∧ env.verify e = true) :
    (MapEquiv (Log.join env (Log.join env L A (-1)).1 B (-1)).1.entryIndex
       (Log.join env (Log.join env L B (-1)).1 A (-1)).1.entryIndex ∧
     MapEquiv (Log.join env (Log.join env L A (-1)).1 B (-1)).1.headsIndex
       (Log.join env (Log.join env L B (-1)).1 A (-1)).1.headsIndex) ∧
    (MapEquiv (Log.join env (Log.join env L A (-1)).1 A (-1)).1.entryIndex
       (Log.join env L A (-1)).1.entryIndex ∧
     MapEquiv (Log.join env (Log.join env L A (-1)).1 A (-1)).1.headsIndex
       (Log.join env L A (-1)).1.headsIndex) := by
  have hLA : JoinHyp L A pool rk := ⟨hWL, hWA, hidA, hpL, hpA, hcompat, hrk⟩
  have hLB : JoinHyp L B pool rk := ⟨hWL, hWB, hidB, hpL, hpB, hcompat, hrk⟩
  have hLAB : JoinHyp (Log.joinClock (Log.joinMid L A)) B pool rk :=
    joinHyp_step hLA hWB hidB hpB
  have hLAA : JoinHyp (Log.joinClock (Log.joinMid L A)) A pool rk :=
    joinHyp_step hLA hWA hidA hpA
  have hLBA : JoinHyp (Log.joinClock (Log.joinMid L B)) A pool rk :=
    joinHyp_step hLB hWA hidA hpA
  have e1 : Log.join env L A (-1) =
      (Log.joinClock (Log.joinMid L A), Except.ok ()) := joinNeg_eq hLA env henv
  have e2 : Log.join env L B (-1) =
      (Log.joinClock (Log.joinMid L B), Except.ok ()) := joinNeg_eq hLB env henv
  have e3 : Log.join env (Log.joinClock (Log.joinMid L A)) B (-1) =
      (Log.joinClock (Log.joinMid (Log.joinClock (Log.joinMid L A)) B),
        Except.ok ()) := joinNeg_eq hLAB env henv
  have e4 : Log.join env (Log.joinClock (Log.joinMid L B)) A (-1) =
      (Log.joinClock (Log.joinMid (Log.joinClock (Log.joinMid L B)) A),
        Except.ok ()) := joinNeg_eq hLBA env henv
  have e5 : Log.join env (Log.joinClock (Log.joinMid L A)) A (-1) =
      (Log.joinClock (Log.joinMid (Log.joinClock (Log.joinMid L A)) A),
        Except.ok ()) := joinNeg_eq hLAA env henv
  have hentC : MapEquiv (Log.joinMid (Log.joinClock (Log.joinMid L A)) B).entryIndex
      (Log.joinMid (Log.joinClock (Log.joinMid L B)) A).entryIndex := by
    intro k
    rw [joinTri_get hLA hWB hidB hpB k, joinTri_get hLB hWA hidA hpA k]
    rcases ht : jsGet L.entryIndex k with _ | v
    · rcases ha : jsGet A.entryIndex k with _ | a <;>
        rcases hb : jsGet B.entryIndex k with _ | b
      · rfl
      · rfl
      · rfl
      · exact congrArg some (hcompat a (hpA a (mem_jsVals_of_jsGet ha)) b
          (hpB b (mem_jsVals_of_jsGet hb))
          (by rw [(hWA.tagged (k, a) (jsGet_mem ha)).1,
                  (hWB.tagged (k, b) (jsGet_mem hb)).1]))
    · rfl
  have hentI : MapEquiv (Log.joinMid (Log.joinClock (Log.joinMid L A)) A).entryIndex
      (Log.joinMid L A).entryIndex := by
    intro k
    rw [joinTri_get hLA hWA hidA hpA k]
    rcases ht : jsGet L.entryIndex k with _ | v <;>
      rcases ha : jsGet A.entryIndex k with _ | a <;>
      simp [unionGet, joinMid_get_eq hLA k, ht, ha]
  have hheadC : MapEquiv (Log.joinMid (Log.joinClock (Log.joinMid L A)) B).headsIndex
      (Log.joinMid (Log.joinClock (Log.joinMid L B)) A).headsIndex :=
    heads_equiv_of_WF (WF_joinMid hLAB) (WF_joinMid hLBA) hentC
  have hheadI : MapEquiv (Log.joinMid (Log.joinClock (Log.joinMid L A)) A).headsIndex
      (Log.joinMid L A).headsIndex :=
    heads_equiv_of_WF (WF_joinMid hLAA) (WF_joinMid hLA) hentI
  simp only [e1, e2, e3, e4, e5]
  exact ⟨⟨hentC, hheadC⟩, ⟨hentI, hheadI⟩⟩

/-- C6 (witness): the amended commutativity and idempotence instantiated
at three concrete well-formed logs over the pool [exX, exY]. -/
theorem join_commutative_idempotent_witness :
    (MapEquiv (Log.join envAllT (Log.join envAllT exLogEmpty exLogC (-1)).1
        exLogB (-1)).1.entryIndex
       (Log.join envAllT (Log.join envAllT exLogEmpty exLogB (-1)).1
        exLogC (-1)).1.entryIndex ∧
     MapEquiv (Log.join envAllT (Log.join envAllT exLogEmpty exLogC (-1)).1
        exLogB (-1)).1.headsIndex
       (Log.join envAllT (Log.join envAllT exLogEmpty exLogB (-1)).1
        exLogC (-1)).1.headsIndex) ∧
    (MapEquiv (Log.join envAllT (Log.join envAllT exLogEmpty exLogC (-1)).1
        exLogC (-1)).1.entryIndex
       (Log.join envAllT exLogEmpty exLogC (-1)).1.entryIndex ∧
     MapEquiv (Log.join envAllT (Log.join envAllT exLogEmpty exLogC (-1)).1
        exLogC (-1)).1.headsIndex
       (Log.join envAllT exLogEmpty exLogC (-1)).1.headsIndex) :=
  join_commutative_idempotent envAllT exLogEmpty exLogC exLogB [exX, exY]
    (fun q => if q = "hy" then 1 else 0)
    ⟨by decide, by decide, by decide, by decide, by decide, by decide,
      by decide, by decide, by decide⟩
    ⟨by decide, by decide, by decide, by decide, by decide, by decide,
      by decide, by decide, by decide⟩
    ⟨by decide, by decide, by decide, by decide, by decide, by decide,
      by decide, by decide, by decide⟩
    rfl rfl (by decide) (by decide) (by decide)
    (by unfold CompatPool; decide) (by unfold RankOk; decide) (by decide)
